import Mathlib

/-!
Verification of the s3flow reconciliation and bulk-transfer engine.

The Python modules `s3_utils/sync.py`, `s3_utils/move.py`, `s3_utils/copy.py`,
`s3_utils/core.py` and `s3_utils/utils.py` are shallowly embedded below.

Modelling conventions:
* a Python `str` is a `List Char` (`PyStr`); Python slicing/startswith map to
  `List.drop` / `List.IsPrefix`;
* the object store is a map from bucket name to the list of keys it holds;
* network effects are recorded in a trace of `S3Call` values; the outcome of a
  `copy`, `head_object` or `delete_objects` call is supplied by an oracle
  argument, so theorems quantify over every pattern of per-item success and
  failure;
* a Python `set` is a duplicate-free `List PyStr` (`List.dedup` of the
  inserted elements); set difference/intersection are membership filters;
  where CPython iterates a set in an unspecified order the embedding uses a
  canonical order (the only outputs any claim depends on are sorted by the
  source itself, or are order-independent counts and memberships);
* a raised exception is an `Except.error`; the `tqdm` progress bar and the
  `max_workers` pool size are pure presentation/scheduling knobs with no
  effect on values and are omitted.
-/

namespace S3Flow

/-- Python strings, modelled as their list of characters. -/
abbrev PyStr := List Char

/-- Bucket names. -/
abbrev Bucket := PyStr

/-- Object keys. -/
abbrev Key := PyStr

/-- The object store: which keys each bucket currently holds. -/
abbrev Store := Bucket → List Key

/-- One network call issued against the store, as recorded in a trace. -/
inductive S3Call where
  | listCall (bucket pfx : PyStr)
  | copyCall (src_bucket src_key dst_bucket dst_key : PyStr)
  | deleteCall (bucket : PyStr) (keys : List PyStr)
deriving DecidableEq, Repr

/-- A call mutates the store exactly when it is a copy or a batch delete. -/
def S3Call.isMutation : S3Call → Bool
  | .listCall _ _ => false
  | .copyCall _ _ _ _ => true
  | .deleteCall _ _ => true

/-- Embedding of `core.list_objects`: every key of the bucket that starts with
the given prefix string and ends with the given suffix string, in listing
order.  (The paginator already filters by prefix; the code re-checks both.) -/
def list_objects (store : Store) (bucket : Bucket) (pfx sfx : PyStr) : List Key :=
  (store bucket).filter (fun k => pfx.isPrefixOf k && sfx.isSuffixOf k)

/-- Embedding of the per-key body of `sync._relativize` / `utils.relativize_keys`:
`k[len(p):] if p and k.startswith(p) else k`. -/
def stripPfx (p : PyStr) (k : Key) : Key :=
  if p ≠ [] ∧ p <+: k then k.drop p.length else k

/-- Embedding of `sync._relativize` and `utils.relativize_keys`: the set of
relativized keys. -/
def relativize (keys : List Key) (p : PyStr) : List Key :=
  (keys.map (stripPfx p)).dedup

/-- Embedding of the Python idiom `f"{p}{r}" if p else r` used to rebuild a
full key from a prefix and a relative key. -/
def joinKey (p : PyStr) (r : Key) : Key :=
  if p ≠ [] then p ++ r else r

/-- Embedding of Python `s.rstrip("/")`: drop every trailing `'/'`. -/
def rstripSlash (p : PyStr) : PyStr :=
  (p.reverse.dropWhile (fun c => c = '/')).reverse

/-- Python `sorted()` on a list of strings (used on `set` values, whose
canonical list form is duplicate-free). -/
def pySorted (l : List PyStr) : List PyStr :=
  List.insertionSort (· ≤ ·) l

/-- Slicing loop with an explicit iteration bound, structurally recursive in
the bound so that it computes inside the kernel: with `fuel ≥ l.length` it
yields the consecutive `size`-element slices of `l`. -/
def chunkedFuel : Nat → List α → Nat → List (List α)
  | _, [], _ => []
  | _, _ :: _, 0 => []
  | 0, _ :: _, _ + 1 => []
  | fuel + 1, a :: l, n + 1 =>
      (a :: l).take (n + 1) :: chunkedFuel fuel ((a :: l).drop (n + 1)) (n + 1)

/-- Embedding of `move._chunked` and of the slicing loop
`for i in range(0, len(l), size): l[i:i+size]` used by `sync_prefix`'s delete
phase: consecutive chunks of `size` elements (callers guarantee `size ≥ 1`;
Python raises before this loop when the step is not positive).  The number of
loop iterations is bounded by the list length, which serves as the
structural bound. -/
def chunked (l : List α) (n : Nat) : List (List α) :=
  chunkedFuel l.length l n

/-- Outcome oracle for `copy.copy_object`: `none` means the copy succeeded,
`some msg` means the call raised an exception rendered as `msg`. -/
abbrev CopyOracle := PyStr → PyStr → PyStr → PyStr → Option String

/-- Outcome oracle for `head_object`: `none` models a raised `ClientError`,
`some (etag, size)` models a successful HEAD, where `etag` is the (always
present) `h.get("ETag", "").strip('"')` value and `size` the optional
`h.get("ContentLength", None)` value. -/
abbrev HeadOracle := PyStr → PyStr → Option (String × Option Int)

/-- Response of one successful `delete_objects` call: the per-key `Deleted`
entries and the per-key `Errors` entries `(key, code, message)`. -/
structure DeleteResp where
  deleted : List PyStr
  errors : List (PyStr × String × String)

/-- Outcome oracle for `delete_objects`: `.error msg` models a raised
`ClientError`, `.ok resp` a (possibly partially failing) response. -/
abbrev DeleteOracle := PyStr → List PyStr → Except String DeleteResp

/-- Embedding of `sync._head_map` restricted to a single key: a successful
HEAD yields `(etag, size)` with the etag present, a `ClientError` collapses
to the `(None, None)` sentinel. -/
def head_map (ho : HeadOracle) (bucket : Bucket) (k : Key) :
    Option String × Option Int :=
  match ho bucket k with
  | some (e, s) => (some e, s)
  | none => (none, none)

/-- The deep-comparison test of `sync_prefix` for one common relative key:
compare the ETag field under `"etag"` mode, the ContentLength field under
`"size"` mode. -/
def metaDiff (ho : HeadOracle) (sb tb : Bucket) (ps pd : PyStr)
    (mode : String) (r : Key) : Bool :=
  let s_meta := head_map ho sb (joinKey ps r)
  let d_meta := head_map ho tb (joinKey pd r)
  if mode = "etag" then decide (s_meta.1 ≠ d_meta.1)
  else if mode = "size" then decide (s_meta.2 ≠ d_meta.2)
  else false

/-- The set of common relative keys that the deep comparison of `sync_prefix`
adds to `to_copy_rel`; empty under `"name"` mode. -/
def deepDiffSet (ho : HeadOracle) (sb tb : Bucket) (ps pd : PyStr)
    (mode : String) (src_rel dst_rel : List Key) : List Key :=
  if mode = "etag" ∨ mode = "size" then
    (src_rel.filter (fun r => decide (r ∈ dst_rel))).filter
      (fun r => metaDiff ho sb tb ps pd mode r = true)
  else []

/-- The overlap guard of `sync_prefix`: same bucket and (after stripping
trailing slashes) equal prefixes or one a string prefix of the other. -/
def syncGuardBad (sb tb ps pd : PyStr) : Bool :=
  sb == tb &&
    (rstripSlash ps == rstripSlash pd
      || (rstripSlash pd).isPrefixOf (rstripSlash ps)
      || (rstripSlash ps).isPrefixOf (rstripSlash pd))

/-- The `copied` entry of `sync_prefix`'s result dict: relative paths after a
real run, `(src, dst)` full-key pairs after a dry run. -/
inductive CopiedField where
  | rels (l : List PyStr)
  | pairs (l : List (PyStr × PyStr))
deriving DecidableEq, Repr

/-- The `stats` sub-dict of `sync_prefix`'s result. -/
structure SyncStats where
  src_total : Nat
  dst_total : Nat
  to_copy : Nat
  to_delete : Nat
  compare_mode : String
  dry_run : Bool
deriving DecidableEq, Repr

/-- The result dict of `sync_prefix`. -/
structure SyncResult where
  copied : CopiedField
  deleted : List PyStr
  errors_copy : List String
  errors_delete : List String
  stats : SyncStats
deriving DecidableEq, Repr

/-- One step of `sync_prefix`'s delete loop: a successful `delete_objects`
response contributes its `Deleted` keys and its per-key error strings, a
raised `ClientError` contributes a single error string. -/
def syncDelStep (dor : DeleteOracle) (tb : Bucket)
    (acc : List PyStr × List String) (c : List PyStr) : List PyStr × List String :=
  match dor tb c with
  | .ok resp =>
      (acc.1 ++ resp.deleted,
       acc.2 ++ resp.errors.map (fun e => String.mk e.1 ++ ": " ++ e.2.2))
  | .error e => (acc.1, acc.2 ++ [e])

/-- Accumulation loop of `sync_prefix`'s delete phase over all chunks. -/
def syncDelFold (dor : DeleteOracle) (tb : Bucket)
    (chunks : List (List PyStr)) : List PyStr × List String :=
  chunks.foldl (syncDelStep dor tb) ([], [])

/-- Delete phase of `sync_prefix` (`if delete_extra:` block): emits one
`delete_objects` call per `delete_batch_size` slice of the extra destination
keys, collecting `Deleted` keys and per-key or per-call error strings.
Python's `range(0, n, step)` raises `ValueError` only when the step is
exactly zero, which `sync_prefix` does not catch; a negative step yields an
empty range, so the slicing loop never executes and the phase completes
without issuing a single delete call. -/
def syncDeletePhase (dor : DeleteOracle) (tb : Bucket) (pd : PyStr)
    (delete_extra dry_run : Bool) (extras : List Key) (dbs : Int) :
    List S3Call × Except String (List PyStr × List String) :=
  if delete_extra then
    if extras = [] then ([], .ok ([], []))
    else if dry_run then
      ([], .ok ((pySorted extras).map (joinKey pd), []))
    else if dbs = 0 then
      ([], .error "ValueError: range() arg 3 must not be zero")
    else
      let keys_list := (pySorted extras).map (joinKey pd)
      let chunks := if dbs < 0 then [] else chunked keys_list dbs.toNat
      (chunks.map (fun c => S3Call.deleteCall tb c),
       .ok (syncDelFold dor tb chunks))
  else ([], .ok ([], []))

/-- The `src_keys` set of `sync_prefix`: listed source keys as a set. -/
def syncSrcKeys (store : Store) (sb : Bucket) (ps : PyStr) : List Key :=
  (list_objects store sb ps []).dedup

/-- The `dst_keys` set of `sync_prefix`: listed destination keys as a set. -/
def syncDstKeys (store : Store) (tb : Bucket) (pd : PyStr) : List Key :=
  (list_objects store tb pd []).dedup

/-- The `src_rel` set of `sync_prefix`. -/
def syncSrcRel (store : Store) (sb : Bucket) (ps : PyStr) : List Key :=
  relativize (list_objects store sb ps []) ps

/-- The `dst_rel` set of `sync_prefix`. -/
def syncDstRel (store : Store) (tb : Bucket) (pd : PyStr) : List Key :=
  relativize (list_objects store tb pd []) pd

/-- The final `to_copy_rel` set of `sync_prefix`: the name difference
`src_rel - dst_rel` plus, under a deep comparison mode, the differing common
keys. -/
def syncToCopy (store : Store) (ho : HeadOracle) (sb tb : Bucket)
    (ps pd : PyStr) (cm : String) : List Key :=
  (syncSrcRel store sb ps).filter (fun r => decide (r ∉ syncDstRel store tb pd)) ++
    deepDiffSet ho sb tb ps pd cm (syncSrcRel store sb ps) (syncDstRel store tb pd)

/-- The `extras_rel` set of `sync_prefix`: `dst_rel - src_rel`. -/
def syncExtras (store : Store) (sb tb : Bucket) (ps pd : PyStr) : List Key :=
  (syncDstRel store tb pd).filter (fun r => decide (r ∉ syncSrcRel store sb ps))

/-- Embedding of `sync.sync_prefix`.  Returns the trace of issued calls and
either the result dict or the uncaught exception.  The copy phase submits one
`copy_object` per element of `to_copy_rel` and collects the failures' messages;
the returned `copied` list is `sorted(list(to_copy_rel))` itself, whether or
not individual copies failed. -/
def sync_pfx (store : Store) (ho : HeadOracle) (co : CopyOracle)
    (dor : DeleteOracle) (source_bucket target_bucket : Bucket)
    (pfx_src pfx_dst : PyStr) (delete_extra : Bool) (compare_mode : String)
    (dry_run : Bool) (delete_batch_size : Int) :
    List S3Call × Except String SyncResult :=
  if syncGuardBad source_bucket target_bucket pfx_src pfx_dst then
    ([], .error "Refusing to sync: src/dst prefixes overlap in the same bucket")
  else
    let to_copy := syncToCopy store ho source_bucket target_bucket
      pfx_src pfx_dst compare_mode
    let sorted_copy := pySorted to_copy
    let copy_calls : List S3Call :=
      if dry_run then []
      else sorted_copy.map (fun r =>
        .copyCall source_bucket (joinKey pfx_src r) target_bucket (joinKey pfx_dst r))
    let errors_copy : List String :=
      if dry_run then []
      else sorted_copy.filterMap (fun r =>
        co source_bucket (joinKey pfx_src r) target_bucket (joinKey pfx_dst r))
    let copied : CopiedField :=
      if dry_run then
        .pairs (sorted_copy.map (fun r => (joinKey pfx_src r, joinKey pfx_dst r)))
      else .rels sorted_copy
    let extras := syncExtras store source_bucket target_bucket pfx_src pfx_dst
    let del := syncDeletePhase dor target_bucket pfx_dst delete_extra dry_run
      extras delete_batch_size
    let trace := [S3Call.listCall source_bucket pfx_src,
                  S3Call.listCall target_bucket pfx_dst] ++ copy_calls ++ del.1
    match del.2 with
    | .error e => (trace, .error e)
    | .ok (deleted, errors_delete) =>
        (trace,
         .ok { copied := copied
               deleted := deleted
               errors_copy := errors_copy
               errors_delete := errors_delete
               stats :=
                 { src_total := (syncSrcKeys store source_bucket pfx_src).length
                   dst_total := (syncDstKeys store target_bucket pfx_dst).length
                   to_copy := to_copy.length
                   to_delete := if dry_run then extras.length else deleted.length
                   compare_mode := compare_mode
                   dry_run := dry_run } })

/-- Lexicographic comparison of `(src, dst)` pairs: Python's default tuple
ordering used by `copied.sort()` in `move._parallel_copy`. -/
def pairLe (a b : PyStr × PyStr) : Prop :=
  a.1 < b.1 ∨ (a.1 = b.1 ∧ a.2 ≤ b.2)

instance : DecidableRel pairLe := fun a b =>
  decidable_of_iff (a.1 < b.1 ∨ (a.1 = b.1 ∧ a.2 ≤ b.2)) Iff.rfl

/-- Embedding of `move._parallel_copy`: `completed` is the list of submitted
pairs in the order the pool happened to complete them (some permutation of
the submission order); successes are collected and finally sorted, failures
contribute their exception message to `errors`. -/
def parallel_copy (co : CopyOracle) (sb tb : Bucket)
    (completed : List (PyStr × PyStr)) :
    List (PyStr × PyStr) × List String :=
  (List.insertionSort pairLe (completed.filter (fun p => co sb p.1 tb p.2 = none)),
   completed.filterMap (fun p => co sb p.1 tb p.2))

/-- The `stats` sub-dict of `move_by_mask`'s result. -/
structure MoveStats where
  source_bucket : PyStr
  target_bucket : PyStr
  pfx : PyStr
  pfx_dst : PyStr
  sfx : PyStr
  total : Nat
  dry_run : Bool
deriving DecidableEq, Repr

/-- The result dict of `move_by_mask`. -/
structure MoveResult where
  moved : List (PyStr × PyStr)
  errors_copy : List String
  deleted_source : List PyStr
  errors_delete : List String
  stats : MoveStats
deriving DecidableEq, Repr

/-- The `(src_key, dst_key)` pairs `move_by_mask` builds from the relativized
source keys (set iteration rendered in sorted order). -/
def movePairs (store : Store) (sb : Bucket) (pfx sfx pfx_dst : PyStr) :
    List (PyStr × PyStr) :=
  (pySorted (relativize (list_objects store sb pfx sfx) pfx)).map
    (fun r => (joinKey pfx r, joinKey pfx_dst r))

/-- The clamped chunk size of `move_by_mask`'s delete phase:
`min(max(int(delete_batch_size), 1), 1000)`. -/
def moveChunkSize (dbs : Int) : Nat := (min (max dbs 1) 1000).toNat

/-- One step of `move_by_mask`'s delete loop: a successful response
contributes its `Deleted` keys and its per-key error strings rendered with
key, code and message; a raised exception contributes one entry per key of
the chunk. -/
def moveDelStep (dor : DeleteOracle) (sb : Bucket)
    (acc : List PyStr × List String) (c : List PyStr) : List PyStr × List String :=
  match dor sb c with
  | .ok resp =>
      (acc.1 ++ resp.deleted,
       acc.2 ++ resp.errors.map
         (fun e => String.mk e.1 ++ ": " ++ e.2.1 ++ " " ++ e.2.2))
  | .error e => (acc.1, acc.2 ++ c.map (fun k => String.mk k ++ ": " ++ e))

/-- Accumulation loop of `move_by_mask`'s delete phase over all chunks. -/
def moveDelFold (dor : DeleteOracle) (sb : Bucket)
    (chunks : List (List PyStr)) : List PyStr × List String :=
  chunks.foldl (moveDelStep dor sb) ([], [])

/-- Embedding of `move.move_by_mask`: list and relativize the masked source
keys, copy all pairs, then batch-delete exactly the source keys whose copy
succeeded.  A whole-call `delete_objects` failure is recorded as one error
entry per key of that chunk; per-key failures keep their `(key, code, msg)`
rendering. -/
def move_by_mask (store : Store) (co : CopyOracle) (dor : DeleteOracle)
    (source_bucket target_bucket : Bucket) (pfx sfx pfx_dst : PyStr)
    (dry_run : Bool) (delete_batch_size : Int) :
    List S3Call × MoveResult :=
  let pairs := movePairs store source_bucket pfx sfx pfx_dst
  if dry_run then
    ([S3Call.listCall source_bucket pfx],
     { moved := pairs
       errors_copy := []
       deleted_source := pairs.map Prod.fst
       errors_delete := []
       stats :=
         { source_bucket := source_bucket, target_bucket := target_bucket
           pfx := pfx, pfx_dst := pfx_dst, sfx := sfx
           total := pairs.length, dry_run := true } })
  else
    let res := parallel_copy co source_bucket target_bucket pairs
    let to_delete := res.1.map Prod.fst
    let chunks := chunked to_delete (moveChunkSize delete_batch_size)
    let delRes := moveDelFold dor source_bucket chunks
    ([S3Call.listCall source_bucket pfx] ++
       pairs.map (fun p => S3Call.copyCall source_bucket p.1 target_bucket p.2) ++
       chunks.map (fun c => S3Call.deleteCall source_bucket c),
     { moved := res.1
       errors_copy := res.2
       deleted_source := delRes.1
       errors_delete := delRes.2
       stats :=
         { source_bucket := source_bucket, target_bucket := target_bucket
           pfx := pfx, pfx_dst := pfx_dst, sfx := sfx
           total := pairs.length, dry_run := false } })

/-- Embedding of `copy.copy_files_by_keys`: a sequential loop with no error
handling — the first copy that raises propagates, and the remaining keys are
never attempted. -/
def copy_files_by_keys (co : CopyOracle) (sb tb : Bucket) (keys : List Key)
    (pfx_src pfx_dst : PyStr) : List S3Call × Except String Unit :=
  match keys with
  | [] => ([], .ok ())
  | key :: rest =>
      let src_key := if pfx_src ≠ [] ∧ pfx_src <+: key then key.drop pfx_src.length else key
      let dst_key := if pfx_dst ≠ [] then pfx_dst ++ src_key else src_key
      match co sb key tb dst_key with
      | some e => ([S3Call.copyCall sb key tb dst_key], .error e)
      | none =>
          let tail := copy_files_by_keys co sb tb rest pfx_src pfx_dst
          (S3Call.copyCall sb key tb dst_key :: tail.1, tail.2)

/-- Embedding of `copy.copy_by_mask`: list keys under the mask, copy them all
via `copy_files_by_keys`, and return the listed keys; an exception from any
single copy propagates to the caller. -/
def copy_by_mask (store : Store) (co : CopyOracle) (sb tb : Bucket)
    (pfx sfx pfx_dst : PyStr) : List S3Call × Except String (List Key) :=
  let keys := list_objects store sb pfx sfx
  let inner := copy_files_by_keys co sb tb keys pfx pfx_dst
  (S3Call.listCall sb pfx :: inner.1, inner.2.map (fun _ => keys))

/-- Embedding of Python `s.lstrip("/")`: drop every leading `'/'`. -/
def lstripSlash (p : PyStr) : PyStr := p.dropWhile (fun c => c = '/')

/-- The destination-key mapping of `copy._copy_prefix`:
`dst_prefix + key[len(src_prefix):].lstrip("/")`. -/
def dst_key_for (sp dp : PyStr) (key : Key) : Key :=
  dp ++ lstripSlash (key.drop sp.length)

/-- Embedding of `copy._copy_prefix`, the per-subtree worker of the
common/addon split: it guards against same-bucket equal prefixes, then
copies every listed key over the pool, counting successes and failures per
item — each per-item exception is caught, so the remaining items always
run. -/
def copy_pfx (store : Store) (co : CopyOracle) (sb tb : Bucket)
    (sp dp : PyStr) : List S3Call × Except String (Nat × Nat) :=
  if sb == tb && rstripSlash sp == rstripSlash dp then
    ([], .error "src_prefix and dst_prefix must differ")
  else
    let keys := list_objects store sb sp []
    (S3Call.listCall sb sp ::
       keys.map (fun k => S3Call.copyCall sb k tb (dst_key_for sp dp k)),
     .ok ((keys.filter (fun k => co sb k tb (dst_key_for sp dp k) = none)).length,
          (keys.filter (fun k => ¬ co sb k tb (dst_key_for sp dp k) = none)).length))

/-- Embedding of `core.list_prefixes` in its key-scanning variant, the one
the spec adopts (`core.py` stages two variants of this helper; the scanning
one enumerates all keys under the root and takes the leading `depth` path
components, avoiding store-side delimiter semantics): the distinct
component-prefixes under `root`. -/
def list_pfxes (store : Store) (bucket : Bucket) (root : PyStr)
    (depth : Nat) : List PyStr :=
  ((list_objects store bucket root []).filterMap (fun key =>
    let rel := lstripSlash (key.drop root.length)
    if rel = [] then none
    else
      let parts := rel.splitOn '/'
      let tk := min depth parts.length
      if 0 < tk then some (List.intercalate ['/'] (parts.take tk))
      else none)).dedup

/-- Embedding of `core.list_prefix_names`: the distinct first-level folder
names under a root. -/
def list_pfx_names (store : Store) (bucket : Bucket) (root : PyStr) :
    List PyStr :=
  list_pfxes store bucket root 1

/-- Per-child loop of `copy.copy_common_and_addon_from_roots`: run
`_copy_prefix` for each child name in order, recording one
`(name, (oks, errs))` summary entry per child; an exception from a child
(only the overlap guard can raise) propagates and abandons the remaining
children. -/
def copyChildren (store : Store) (co : CopyOracle) (bucket : Bucket)
    (src_root dst_root : PyStr) :
    List PyStr → List S3Call × Except String (List (PyStr × Nat × Nat))
  | [] => ([], .ok [])
  | name :: rest =>
      let res := copy_pfx store co bucket bucket
        (src_root ++ name ++ ['/']) (dst_root ++ name ++ ['/'])
      match res.2 with
      | .error e => (res.1, .error e)
      | .ok counts =>
          let tail := copyChildren store co bucket src_root dst_root rest
          (res.1 ++ tail.1, tail.2.map (fun l => (name, counts) :: l))

/-- The summary dict of `copy_common_and_addon_from_roots`. -/
structure CommonAddonSummary where
  common : List (PyStr × Nat × Nat)
  addon : List (PyStr × Nat × Nat)
  common_count : Nat
  addon_count : Nat
deriving DecidableEq, Repr

/-- Embedding of `copy.copy_common_and_addon_from_roots`: split the child
names under the two roots into `common` (present under both) and `addon`
(source only), then copy each child's subtree to the matching destination
root via `_copy_prefix`, recording per-child results independently. -/
def copy_common_and_addon (store : Store) (co : CopyOracle) (bucket : Bucket)
    (src_root ref_root common_dst addon_dst : PyStr) :
    List S3Call × Except String CommonAddonSummary :=
  let src_names := list_pfx_names store bucket src_root
  let ref_names := list_pfx_names store bucket ref_root
  let common := pySorted (src_names.filter (fun n => decide (n ∈ ref_names)))
  let addon := pySorted (src_names.filter (fun n => decide (n ∉ ref_names)))
  let lead := [S3Call.listCall bucket src_root, S3Call.listCall bucket ref_root]
  let rc := copyChildren store co bucket src_root common_dst common
  match rc.2 with
  | .error e => (lead ++ rc.1, .error e)
  | .ok centries =>
      let ra := copyChildren store co bucket src_root addon_dst addon
      match ra.2 with
      | .error e => (lead ++ rc.1 ++ ra.1, .error e)
      | .ok aentries =>
          (lead ++ rc.1 ++ ra.1,
           .ok { common := centries
                 addon := aentries
                 common_count := common.length
                 addon_count := addon.length })

/-- Store semantics of one call: a copy makes the destination key present in
the destination bucket, a batch delete removes the named keys from its
bucket, a listing changes nothing. -/
def applyCall (store : Store) : S3Call → Store
  | .listCall _ _ => store
  | .copyCall _ _ db dk => fun b => if b = db then dk :: store b else store b
  | .deleteCall db ks =>
      fun b => if b = db then (store b).filter (fun k => decide (k ∉ ks)) else store b

/-- Store semantics of a trace, applied left to right. -/
def applyCalls (store : Store) (calls : List S3Call) : Store :=
  calls.foldl applyCall store

/-- Metadata semantics of one call on the HEAD oracle: a copy gives the
destination key the source key's metadata as read at call time, a batch
delete makes subsequent HEADs of the removed keys fail, a listing changes
nothing. -/
def applyCallMeta (m : HeadOracle) : S3Call → HeadOracle
  | .listCall _ _ => m
  | .copyCall sb sk tb dk =>
      fun b k => if b = tb ∧ k = dk then m sb sk else m b k
  | .deleteCall tb ks =>
      fun b k => if b = tb ∧ k ∈ ks then none else m b k

/-- Metadata semantics of a trace, applied left to right. -/
def applyCallsMeta (m : HeadOracle) (calls : List S3Call) : HeadOracle :=
  calls.foldl applyCallMeta m

/-- A family of pairwise distinct keys — the i-th key is `'a'` repeated `i`
times — used as a concrete fixture to exercise delete batching above the
backend's 1000-key limit. -/
def keyRep (i : Nat) : PyStr := List.replicate i 'a'

/-- A fixture store: destination bucket `t` holds 1001 distinct keys, the
source bucket is empty. -/
def bigStore : Store :=
  fun b => if b = ['t'] then (List.range 1001).map keyRep else []

/-! Basic lemmas about the key algebra. -/

theorem joinKey_eq_append (p r : PyStr) : joinKey p r = p ++ r := by
  unfold joinKey; split <;> simp_all

theorem joinKey_inj {p r s : PyStr} (h : joinKey p r = joinKey p s) : r = s := by
  simpa [joinKey_eq_append] using h

theorem pfx_prefix_joinKey (p r : PyStr) : p <+: joinKey p r := by
  simp [joinKey_eq_append]

theorem stripPfx_joinKey (p r : PyStr) : stripPfx p (joinKey p r) = r := by
  unfold stripPfx joinKey
  by_cases hp : p = []
  · simp [hp]
  · rw [if_pos hp, if_pos ⟨hp, List.prefix_append p r⟩, List.drop_left]

theorem joinKey_stripPfx {p k : PyStr} (h : p <+: k) : joinKey p (stripPfx p k) = k := by
  by_cases hp : p = []
  · simp [hp, joinKey, stripPfx]
  · rw [joinKey_eq_append]
    unfold stripPfx
    rw [if_pos ⟨hp, h⟩]
    obtain ⟨t, rfl⟩ := h
    rw [List.drop_left]

theorem stripPfx_nil (k : Key) : stripPfx [] k = k := by
  simp [stripPfx]

theorem joinKey_nil (r : Key) : joinKey [] r = r := by
  simp [joinKey]

theorem keyRep_inj : Function.Injective keyRep := by
  intro a b h
  have := congrArg List.length h
  simpa [keyRep] using this

theorem list_objects_no_mask (store : Store) (b : Bucket) :
    list_objects store b [] [] = store b := by
  unfold list_objects
  refine List.filter_eq_self.mpr fun k _ => ?_
  simp [List.isPrefixOf_iff_prefix, List.isSuffixOf_iff_suffix]

theorem relativize_nil_pfx (keys : List Key) :
    relativize keys [] = keys.dedup := by
  unfold relativize
  have hmap : keys.map (stripPfx []) = keys := by
    induction keys with
    | nil => rfl
    | cons k ks ih => simp [stripPfx_nil, ih]
  rw [hmap]

theorem mem_relativize {keys : List Key} {p : PyStr} {x : Key} :
    x ∈ relativize keys p ↔ ∃ k ∈ keys, stripPfx p k = x := by
  simp [relativize, List.mem_dedup]

theorem relativize_nodup (keys : List Key) (p : PyStr) :
    (relativize keys p).Nodup :=
  List.nodup_dedup _

theorem pySorted_perm (l : List PyStr) : (pySorted l).Perm l :=
  List.perm_insertionSort _ _

theorem mem_pySorted {l : List PyStr} {x : PyStr} : x ∈ pySorted l ↔ x ∈ l :=
  List.mem_insertionSort _

theorem pySorted_length (l : List PyStr) : (pySorted l).length = l.length :=
  List.length_insertionSort _ _

theorem pySorted_sorted (l : List PyStr) : (pySorted l).Sorted (· ≤ ·) :=
  List.sorted_insertionSort _ _

theorem mem_list_objects {store : Store} {b : Bucket} {pfx sfx : PyStr} {k : Key} :
    k ∈ list_objects store b pfx sfx ↔ k ∈ store b ∧ pfx <+: k ∧ sfx <:+ k := by
  simp [list_objects, List.mem_filter, List.isPrefixOf_iff_prefix,
    List.isSuffixOf_iff_suffix]

/-! Lemmas about `chunked`. -/

theorem chunkedFuel_congr : ∀ {fuel1 fuel2 : Nat} {l : List α} {n : Nat},
    l.length ≤ fuel1 → l.length ≤ fuel2 →
    chunkedFuel fuel1 l n = chunkedFuel fuel2 l n := by
  intro fuel1
  induction fuel1 with
  | zero =>
    intro fuel2 l n h1 h2
    have hl : l = [] := by cases l <;> simp_all
    subst hl
    cases fuel2 <;> cases n <;> rfl
  | succ f ih =>
    intro fuel2 l n h1 h2
    cases l with
    | nil => cases fuel2 <;> cases n <;> rfl
    | cons a t =>
      cases n with
      | zero => cases fuel2 <;> rfl
      | succ m =>
        cases fuel2 with
        | zero => simp at h2
        | succ g =>
          simp only [chunkedFuel]
          congr 1
          apply ih <;> simp_all [List.length_drop] <;> omega

theorem chunked_cons {l : List α} {n : Nat} (hl : l ≠ []) (hn : 1 ≤ n) :
    chunked l n = l.take n :: chunked (l.drop n) n := by
  cases l with
  | nil => exact absurd rfl hl
  | cons a t =>
    cases n with
    | zero => omega
    | succ m =>
      show chunkedFuel (a :: t).length (a :: t) (m + 1) = _
      simp only [List.length_cons, chunkedFuel]
      refine congrArg _ ?_
      exact chunkedFuel_congr (by simp [List.length_drop]) (le_refl _)

theorem chunked_flatten (l : List α) (n : Nat) (hn : 1 ≤ n) :
    (chunked l n).flatten = l := by
  by_cases hl : l = []
  · subst hl; cases n <;> simp [chunked, chunkedFuel]
  · rw [chunked_cons hl hn, List.flatten_cons, chunked_flatten (l.drop n) n hn,
      List.take_append_drop]
termination_by l.length
decreasing_by
  simp only [List.length_drop]
  have := List.length_pos.mpr hl
  omega

theorem mem_chunked {l : List α} {n : Nat} {c : List α}
    (hc : c ∈ chunked l n) : c ≠ [] ∧ c.length ≤ n := by
  rcases Nat.eq_zero_or_pos n with hn | hn
  · subst hn
    cases l <;> simp [chunked, chunkedFuel] at hc
  · by_cases hl : l = []
    · subst hl; cases n <;> simp [chunked, chunkedFuel] at hc
    · rw [chunked_cons hl hn] at hc
      rcases List.mem_cons.mp hc with rfl | hc
      · constructor
        · have h1 := List.length_pos.mpr hl
          intro hceq
          have h2 : (List.take n l).length = min n l.length := List.length_take n l
          rw [hceq] at h2
          simp at h2
          omega
        · exact List.length_take_le n l
      · exact mem_chunked hc
termination_by l.length
decreasing_by
  simp only [List.length_drop]
  have := List.length_pos.mpr hl
  omega

/-! Accumulator lemmas for the delete folds. -/

theorem foldl_acc_split {α β σ : Type} (step : List α × List β → σ → List α × List β)
    (hstep : ∀ acc c, step acc c =
      (acc.1 ++ (step ([], []) c).1, acc.2 ++ (step ([], []) c).2)) :
    ∀ (cs : List σ) (acc : List α × List β),
      cs.foldl step acc =
        (acc.1 ++ (cs.foldl step ([], [])).1, acc.2 ++ (cs.foldl step ([], [])).2) := by
  intro cs
  induction cs with
  | nil => intro acc; simp
  | cons c cs ih =>
    intro acc
    rw [List.foldl_cons, List.foldl_cons, ih (step acc c), ih (step ([], []) c),
      hstep acc c]
    simp [List.append_assoc]

theorem syncDelStep_split (dor : DeleteOracle) (tb : Bucket)
    (acc : List PyStr × List String) (c : List PyStr) :
    syncDelStep dor tb acc c =
      (acc.1 ++ (syncDelStep dor tb ([], []) c).1,
       acc.2 ++ (syncDelStep dor tb ([], []) c).2) := by
  unfold syncDelStep
  cases dor tb c <;> simp

theorem syncDelFold_cons (dor : DeleteOracle) (tb : Bucket) (c : List PyStr)
    (cs : List (List PyStr)) :
    syncDelFold dor tb (c :: cs) =
      ((syncDelStep dor tb ([], []) c).1 ++ (syncDelFold dor tb cs).1,
       (syncDelStep dor tb ([], []) c).2 ++ (syncDelFold dor tb cs).2) := by
  unfold syncDelFold
  rw [List.foldl_cons, foldl_acc_split _ (syncDelStep_split dor tb)]

theorem syncDelFold_all_ok (dor : DeleteOracle) (tb : Bucket)
    (chunks : List (List PyStr))
    (h : ∀ c ∈ chunks, dor tb c = .ok ⟨c, []⟩) :
    syncDelFold dor tb chunks = (chunks.flatten, []) := by
  induction chunks with
  | nil => rfl
  | cons c cs ih =>
    rw [syncDelFold_cons, ih (fun c hc => h c (by simp [hc]))]
    have hc := h c (by simp)
    simp [syncDelStep, hc]

theorem syncDelFold_deleted_sub (dor : DeleteOracle) (tb : Bucket)
    (chunks : List (List PyStr))
    (h : ∀ c resp, dor tb c = .ok resp → resp.deleted ⊆ c) :
    (syncDelFold dor tb chunks).1 ⊆ chunks.flatten := by
  induction chunks with
  | nil => simp [syncDelFold]
  | cons c cs ih =>
    rw [syncDelFold_cons]
    intro k hk
    simp only [List.mem_append] at hk
    rcases hk with hk | hk
    · rcases hd : dor tb c with e | resp
      · simp [syncDelStep, hd] at hk
      · simp only [syncDelStep, hd] at hk
        simp only [List.nil_append] at hk
        exact List.mem_flatten.mpr ⟨c, by simp, h c resp hd hk⟩
    · have := ih hk
      simp only [List.flatten_cons, List.mem_append]
      exact Or.inr this

theorem moveDelStep_split (dor : DeleteOracle) (sb : Bucket)
    (acc : List PyStr × List String) (c : List PyStr) :
    moveDelStep dor sb acc c =
      (acc.1 ++ (moveDelStep dor sb ([], []) c).1,
       acc.2 ++ (moveDelStep dor sb ([], []) c).2) := by
  unfold moveDelStep
  cases dor sb c <;> simp

theorem moveDelFold_cons (dor : DeleteOracle) (sb : Bucket) (c : List PyStr)
    (cs : List (List PyStr)) :
    moveDelFold dor sb (c :: cs) =
      ((moveDelStep dor sb ([], []) c).1 ++ (moveDelFold dor sb cs).1,
       (moveDelStep dor sb ([], []) c).2 ++ (moveDelFold dor sb cs).2) := by
  unfold moveDelFold
  rw [List.foldl_cons, foldl_acc_split _ (moveDelStep_split dor sb)]

theorem moveDelFold_all_ok (dor : DeleteOracle) (sb : Bucket)
    (chunks : List (List PyStr))
    (h : ∀ c ∈ chunks, dor sb c = .ok ⟨c, []⟩) :
    moveDelFold dor sb chunks = (chunks.flatten, []) := by
  induction chunks with
  | nil => rfl
  | cons c cs ih =>
    rw [moveDelFold_cons, ih (fun c hc => h c (by simp [hc]))]
    have hc := h c (by simp)
    simp [moveDelStep, hc]

theorem moveDelFold_deleted_sub (dor : DeleteOracle) (sb : Bucket)
    (chunks : List (List PyStr))
    (h : ∀ c resp, dor sb c = .ok resp → resp.deleted ⊆ c) :
    (moveDelFold dor sb chunks).1 ⊆ chunks.flatten := by
  induction chunks with
  | nil => simp [moveDelFold]
  | cons c cs ih =>
    rw [moveDelFold_cons]
    intro k hk
    simp only [List.mem_append] at hk
    rcases hk with hk | hk
    · rcases hd : dor sb c with e | resp
      · simp [moveDelStep, hd] at hk
      · simp only [moveDelStep, hd] at hk
        simp only [List.nil_append] at hk
        exact List.mem_flatten.mpr ⟨c, by simp, h c resp hd hk⟩
    · have := ih hk
      simp only [List.flatten_cons, List.mem_append]
      exact Or.inr this

/-! Order facts about the pair comparison used by `copied.sort()`. -/

instance : IsTrans (PyStr × PyStr) pairLe where
  trans := by
    rintro a b c (h1 | ⟨h1, h1b⟩) (h2 | ⟨h2, h2b⟩)
    · exact Or.inl (h1.trans h2)
    · exact Or.inl (lt_of_lt_of_le h1 (le_of_eq h2))
    · exact Or.inl (lt_of_le_of_lt (le_of_eq h1) h2)
    · exact Or.inr ⟨h1.trans h2, h1b.trans h2b⟩

instance : IsAntisymm (PyStr × PyStr) pairLe where
  antisymm := by
    rintro ⟨a1, a2⟩ ⟨b1, b2⟩ (h1 | ⟨h1, h1b⟩) (h2 | ⟨h2, h2b⟩) <;> simp_all
    · exact absurd (h1.trans h2) (lt_irrefl a1)
    · exact le_antisymm h1b h2b

instance : IsTotal (PyStr × PyStr) pairLe where
  total := by
    intro a b
    rcases lt_trichotomy a.1 b.1 with h | h | h
    · exact Or.inl (Or.inl h)
    · rcases le_total a.2 b.2 with h2 | h2
      · exact Or.inl (Or.inr ⟨h, h2⟩)
      · exact Or.inr (Or.inr ⟨h.symm, h2⟩)
    · exact Or.inr (Or.inl h)

/-- A success-membership characterization of `_parallel_copy`'s `copied`
list: an item appears there exactly when it was submitted and its copy
succeeded. -/
theorem mem_parallel_copy_fst {co : CopyOracle} {sb tb : Bucket}
    {completed : List (PyStr × PyStr)} {p : PyStr × PyStr} :
    p ∈ (parallel_copy co sb tb completed).1 ↔
      p ∈ completed ∧ co sb p.1 tb p.2 = none := by
  simp [parallel_copy, List.mem_insertionSort, List.mem_filter]

/-- The `copied` list of `_parallel_copy` does not depend on the completion
order: any completion permutation yields the sorted successful sublist of the
submission order. -/
theorem parallel_copy_fst_of_perm (co : CopyOracle) (sb tb : Bucket)
    {completed pairs : List (PyStr × PyStr)} (h : completed.Perm pairs) :
    (parallel_copy co sb tb completed).1 =
      List.insertionSort pairLe
        (pairs.filter (fun p => co sb p.1 tb p.2 = none)) := by
  exact List.eq_of_perm_of_sorted
    (((List.perm_insertionSort pairLe _).trans
      (h.filter _)).trans (List.perm_insertionSort pairLe _).symm)
    (List.sorted_insertionSort pairLe _)
    (List.sorted_insertionSort pairLe _)

/-! Store-semantics lemmas. -/

theorem applyCalls_append (st : Store) (c₁ c₂ : List S3Call) :
    applyCalls st (c₁ ++ c₂) = applyCalls (applyCalls st c₁) c₂ := by
  simp [applyCalls]

theorem applyCalls_copies (st : Store) (sb tb : Bucket)
    (f g : Key → PyStr) (rs : List Key) (b : Bucket) :
    applyCalls st (rs.map fun r => .copyCall sb (f r) tb (g r)) b =
      if b = tb then (rs.map g).reverse ++ st b else st b := by
  induction rs generalizing st with
  | nil => by_cases hb : b = tb <;> simp [applyCalls, hb]
  | cons r rs ih =>
    simp only [List.map_cons, applyCalls, List.foldl_cons]
    have step : applyCall st (.copyCall sb (f r) tb (g r)) =
        fun b => if b = tb then g r :: st b else st b := rfl
    rw [show List.foldl applyCall (applyCall st (.copyCall sb (f r) tb (g r)))
          (rs.map fun r => .copyCall sb (f r) tb (g r)) b =
        applyCalls (applyCall st (.copyCall sb (f r) tb (g r)))
          (rs.map fun r => .copyCall sb (f r) tb (g r)) b from rfl, ih]
    rw [step]
    by_cases hb : b = tb <;> simp [hb]

theorem applyCalls_deletes (st : Store) (tb : Bucket)
    (chunks : List (List PyStr)) (b : Bucket) :
    applyCalls st (chunks.map fun c => .deleteCall tb c) b =
      if b = tb then (st b).filter (fun k => decide (k ∉ chunks.flatten))
      else st b := by
  induction chunks generalizing st with
  | nil =>
    by_cases hb : b = tb <;> simp [applyCalls, hb]
  | cons c cs ih =>
    simp only [List.map_cons, applyCalls, List.foldl_cons]
    have step : applyCall st (.deleteCall tb c) =
        fun b => if b = tb then (st b).filter (fun k => decide (k ∉ c))
        else st b := rfl
    rw [show List.foldl applyCall (applyCall st (.deleteCall tb c))
          (cs.map fun c => .deleteCall tb c) b =
        applyCalls (applyCall st (.deleteCall tb c))
          (cs.map fun c => .deleteCall tb c) b from rfl, ih]
    rw [step]
    by_cases hb : b = tb
    · simp only [hb, if_pos]
      rw [List.filter_filter]
      apply List.filter_congr
      intro k _
      by_cases h1 : k ∈ c <;> by_cases h2 : k ∈ cs.flatten <;>
        simp [h1, h2]
    · simp [hb]

theorem applyCallsMeta_append (m : HeadOracle) (c₁ c₂ : List S3Call) :
    applyCallsMeta m (c₁ ++ c₂) = applyCallsMeta (applyCallsMeta m c₁) c₂ := by
  simp [applyCallsMeta]

theorem applyCallsMeta_copies_ne (sb tb : Bucket) (f g : Key → PyStr) :
    ∀ (rs : List Key) (m : HeadOracle) (b : Bucket) (k : Key),
      (∀ r ∈ rs, ¬ (b = tb ∧ k = g r)) →
      applyCallsMeta m (rs.map fun r => .copyCall sb (f r) tb (g r)) b k
        = m b k := by
  intro rs
  induction rs with
  | nil => intro m b k _; rfl
  | cons r rest ih =>
    intro m b k h
    show applyCallsMeta (applyCallMeta m (.copyCall sb (f r) tb (g r)))
        (rest.map fun r => .copyCall sb (f r) tb (g r)) b k = m b k
    rw [ih _ b k (fun r' hr' => h r' (List.mem_cons_of_mem r hr'))]
    show (if b = tb ∧ k = g r then m sb (f r) else m b k) = m b k
    rw [if_neg (h r (List.mem_cons_self r rest))]

theorem applyCallsMeta_deletes_ne (tb : Bucket) :
    ∀ (chunks : List (List PyStr)) (m : HeadOracle) (b : Bucket) (k : Key),
      (∀ c ∈ chunks, ¬ (b = tb ∧ k ∈ c)) →
      applyCallsMeta m (chunks.map fun c => .deleteCall tb c) b k = m b k := by
  intro chunks
  induction chunks with
  | nil => intro m b k _; rfl
  | cons c cs ih =>
    intro m b k h
    show applyCallsMeta (applyCallMeta m (.deleteCall tb c))
        (cs.map fun c => .deleteCall tb c) b k = m b k
    rw [ih _ b k (fun c' hc' => h c' (List.mem_cons_of_mem c hc'))]
    show (if b = tb ∧ k ∈ c then none else m b k) = m b k
    rw [if_neg (h c (List.mem_cons_self c cs))]

theorem applyCallsMeta_copies_hit (sb tb : Bucket) (f g : Key → PyStr)
    (hginj : ∀ r r' : Key, g r = g r' → r = r')
    (hal : ∀ r r' : Key, ¬ (tb = sb ∧ g r = f r')) :
    ∀ (rs : List Key) (m : HeadOracle) (r0 : Key),
      rs.Nodup → r0 ∈ rs →
      applyCallsMeta m (rs.map fun r => .copyCall sb (f r) tb (g r)) tb (g r0)
        = m sb (f r0) := by
  intro rs
  induction rs with
  | nil => intro m r0 _ h0; exact absurd h0 (List.not_mem_nil r0)
  | cons r rest ih =>
    intro m r0 hnd h0
    show applyCallsMeta (applyCallMeta m (.copyCall sb (f r) tb (g r)))
        (rest.map fun r => .copyCall sb (f r) tb (g r)) tb (g r0)
      = m sb (f r0)
    rcases List.mem_cons.mp h0 with heq | h0rest
    · subst heq
      have hne : ∀ r' ∈ rest, ¬ (tb = tb ∧ g r0 = g r') := by
        rintro r' hr' ⟨-, hgk⟩
        exact (List.nodup_cons.mp hnd).1 (hginj r0 r' hgk ▸ hr')
      rw [applyCallsMeta_copies_ne sb tb f g rest _ tb (g r0) hne]
      show (if tb = tb ∧ g r0 = g r0 then m sb (f r0) else m tb (g r0))
        = m sb (f r0)
      rw [if_pos ⟨rfl, rfl⟩]
    · rw [ih _ r0 (List.nodup_cons.mp hnd).2 h0rest]
      show (if sb = tb ∧ f r0 = g r then m sb (f r) else m sb (f r0))
        = m sb (f r0)
      rw [if_neg (fun hcon => hal r r0 ⟨hcon.1.symm, hcon.2.symm⟩)]

/-! Case analysis of `sync_prefix`'s delete phase. -/

theorem syncDeletePhase_not_de (dor : DeleteOracle) (tb : Bucket) (pd : PyStr)
    (dry : Bool) (extras : List Key) (dbs : Int) :
    syncDeletePhase dor tb pd false dry extras dbs = ([], .ok ([], [])) := by
  simp [syncDeletePhase]

theorem syncDeletePhase_empty (dor : DeleteOracle) (tb : Bucket) (pd : PyStr)
    (dry : Bool) (dbs : Int) :
    syncDeletePhase dor tb pd true dry [] dbs = ([], .ok ([], [])) := by
  simp [syncDeletePhase]

theorem syncDeletePhase_dry (dor : DeleteOracle) (tb : Bucket) (pd : PyStr)
    (extras : List Key) (dbs : Int) :
    syncDeletePhase dor tb pd true true extras dbs =
      ([], .ok ((pySorted extras).map (joinKey pd), [])) := by
  by_cases h : extras = []
  · subst h; simp [syncDeletePhase, pySorted]
  · simp [syncDeletePhase, h]

theorem syncDeletePhase_real (dor : DeleteOracle) (tb : Bucket) (pd : PyStr)
    (extras : List Key) (dbs : Int) (hdbs : 1 ≤ dbs) :
    syncDeletePhase dor tb pd true false extras dbs =
      ((chunked ((pySorted extras).map (joinKey pd)) dbs.toNat).map
         (fun c => S3Call.deleteCall tb c),
       .ok (syncDelFold dor tb
         (chunked ((pySorted extras).map (joinKey pd)) dbs.toNat))) := by
  by_cases h : extras = []
  · subst h
    simp [syncDeletePhase, pySorted, chunked, chunkedFuel, syncDelFold]
  · have hz : ¬ dbs = 0 := by omega
    have hn : ¬ dbs < 0 := by omega
    simp [syncDeletePhase, h, hz, hn]

theorem syncDeletePhase_negative (dor : DeleteOracle) (tb : Bucket) (pd : PyStr)
    (extras : List Key) (dbs : Int) (hneg : dbs < 0) :
    syncDeletePhase dor tb pd true false extras dbs = ([], .ok ([], [])) := by
  have hz : ¬ dbs = 0 := by omega
  by_cases h : extras = [] <;>
    simp [syncDeletePhase, h, hz, hneg, syncDelFold]

theorem syncDeletePhase_valueError (dor : DeleteOracle) (tb : Bucket)
    (pd : PyStr) (extras : List Key) (dbs : Int) (hne : extras ≠ [])
    (hdbs : dbs = 0) :
    syncDeletePhase dor tb pd true false extras dbs =
      ([], .error "ValueError: range() arg 3 must not be zero") := by
  simp [syncDeletePhase, hne, hdbs]

/-- Master characterization of a non-guarded `sync_prefix` run whose delete
phase did not raise. -/
theorem sync_pfx_ok_eq (store : Store) (ho : HeadOracle) (co : CopyOracle)
    (dor : DeleteOracle) (sb tb : Bucket) (ps pd : PyStr)
    (de : Bool) (cm : String) (dry : Bool) (dbs : Int)
    {dcalls : List S3Call} {dp : List PyStr × List String}
    (hg : syncGuardBad sb tb ps pd = false)
    (hdel : syncDeletePhase dor tb pd de dry (syncExtras store sb tb ps pd) dbs
      = (dcalls, .ok dp)) :
    sync_pfx store ho co dor sb tb ps pd de cm dry dbs =
      ([S3Call.listCall sb ps, S3Call.listCall tb pd] ++
        (if dry then []
         else (pySorted (syncToCopy store ho sb tb ps pd cm)).map (fun r =>
           S3Call.copyCall sb (joinKey ps r) tb (joinKey pd r))) ++ dcalls,
       .ok { copied :=
               if dry then
                 .pairs ((pySorted (syncToCopy store ho sb tb ps pd cm)).map
                   (fun r => (joinKey ps r, joinKey pd r)))
               else .rels (pySorted (syncToCopy store ho sb tb ps pd cm))
             deleted := dp.1
             errors_copy :=
               if dry then []
               else (pySorted (syncToCopy store ho sb tb ps pd cm)).filterMap
                 (fun r => co sb (joinKey ps r) tb (joinKey pd r))
             errors_delete := dp.2
             stats :=
               { src_total := (syncSrcKeys store sb ps).length
                 dst_total := (syncDstKeys store tb pd).length
                 to_copy := (syncToCopy store ho sb tb ps pd cm).length
                 to_delete :=
                   if dry then (syncExtras store sb tb ps pd).length
                   else dp.1.length
                 compare_mode := cm
                 dry_run := dry } }) := by
  obtain ⟨deleted, errdel⟩ := dp
  unfold sync_pfx
  rw [if_neg (by simp [hg])]
  simp only [hdel]

/-- Under `"name"` comparison mode the deep-comparison stage contributes
nothing. -/
theorem deepDiffSet_name (ho : HeadOracle) (sb tb : Bucket) (ps pd : PyStr)
    (src dst : List Key) :
    deepDiffSet ho sb tb ps pd "name" src dst = [] := by
  simp [deepDiffSet]

/-- Under `"name"` comparison mode `to_copy_rel` is exactly the relative-key
set difference source minus destination. -/
theorem syncToCopy_name (store : Store) (ho : HeadOracle) (sb tb : Bucket)
    (ps pd : PyStr) :
    syncToCopy store ho sb tb ps pd "name" =
      (syncSrcRel store sb ps).filter
        (fun r => decide (r ∉ syncDstRel store tb pd)) := by
  simp [syncToCopy, deepDiffSet_name]

/-- Master characterization of a non-guarded `sync_prefix` run whose delete
phase raised `ValueError`. -/
theorem sync_pfx_error_eq (store : Store) (ho : HeadOracle) (co : CopyOracle)
    (dor : DeleteOracle) (sb tb : Bucket) (ps pd : PyStr)
    (de : Bool) (cm : String) (dry : Bool) (dbs : Int)
    {dcalls : List S3Call} {e : String}
    (hg : syncGuardBad sb tb ps pd = false)
    (hdel : syncDeletePhase dor tb pd de dry (syncExtras store sb tb ps pd) dbs
      = (dcalls, .error e)) :
    sync_pfx store ho co dor sb tb ps pd de cm dry dbs =
      ([S3Call.listCall sb ps, S3Call.listCall tb pd] ++
        (if dry then []
         else (pySorted (syncToCopy store ho sb tb ps pd cm)).map (fun r =>
           S3Call.copyCall sb (joinKey ps r) tb (joinKey pd r))) ++ dcalls,
       .error e) := by
  unfold sync_pfx
  rw [if_neg (by simp [hg])]
  simp only [hdel]

/-- Master characterization of a real (`dry_run=False`) `move_by_mask` run. -/
theorem move_by_mask_real_eq (store : Store) (co : CopyOracle)
    (dor : DeleteOracle) (sb tb : Bucket) (pfx sfx pfx_dst : PyStr) (dbs : Int) :
    move_by_mask store co dor sb tb pfx sfx pfx_dst false dbs =
      ([S3Call.listCall sb pfx] ++
        (movePairs store sb pfx sfx pfx_dst).map
          (fun p => S3Call.copyCall sb p.1 tb p.2) ++
        (chunked ((parallel_copy co sb tb (movePairs store sb pfx sfx pfx_dst)).1.map
            Prod.fst) (moveChunkSize dbs)).map
          (fun c => S3Call.deleteCall sb c),
       { moved := (parallel_copy co sb tb (movePairs store sb pfx sfx pfx_dst)).1
         errors_copy := (parallel_copy co sb tb (movePairs store sb pfx sfx pfx_dst)).2
         deleted_source := (moveDelFold dor sb
           (chunked ((parallel_copy co sb tb (movePairs store sb pfx sfx pfx_dst)).1.map
             Prod.fst) (moveChunkSize dbs))).1
         errors_delete := (moveDelFold dor sb
           (chunked ((parallel_copy co sb tb (movePairs store sb pfx sfx pfx_dst)).1.map
             Prod.fst) (moveChunkSize dbs))).2
         stats :=
           { source_bucket := sb, target_bucket := tb
             pfx := pfx, pfx_dst := pfx_dst, sfx := sfx
             total := (movePairs store sb pfx sfx pfx_dst).length
             dry_run := false } }) := rfl

/-- Master characterization of a dry `move_by_mask` run. -/
theorem move_by_mask_dry_eq (store : Store) (co : CopyOracle)
    (dor : DeleteOracle) (sb tb : Bucket) (pfx sfx pfx_dst : PyStr) (dbs : Int) :
    move_by_mask store co dor sb tb pfx sfx pfx_dst true dbs =
      ([S3Call.listCall sb pfx],
       { moved := movePairs store sb pfx sfx pfx_dst
         errors_copy := []
         deleted_source := (movePairs store sb pfx sfx pfx_dst).map Prod.fst
         errors_delete := []
         stats :=
           { source_bucket := sb, target_bucket := tb
             pfx := pfx, pfx_dst := pfx_dst, sfx := sfx
             total := (movePairs store sb pfx sfx pfx_dst).length
             dry_run := true } }) := rfl

/-- The clamped chunk size of `move_by_mask` always lies in `[1, 1000]`. -/
theorem moveChunkSize_bounds (dbs : Int) :
    1 ≤ moveChunkSize dbs ∧ moveChunkSize dbs ≤ 1000 := by
  unfold moveChunkSize
  omega

theorem length_filterMap_eq_length_filter (f : α → Option β) (l : List α) :
    (l.filterMap f).length = (l.filter (fun x => (f x).isSome)).length := by
  induction l with
  | nil => rfl
  | cons x xs ih =>
    rcases hx : f x with _ | b <;>
      simp [List.filterMap_cons, List.filter_cons, hx, ih]

theorem length_filter_add_length_filter_not (p : α → Bool) (l : List α) :
    (l.filter p).length + (l.filter (fun x => !(p x))).length = l.length := by
  induction l with
  | nil => rfl
  | cons x xs ih =>
    by_cases hx : p x = true <;>
      simp [List.filter_cons, hx, ih] <;> omega

/-- For any positive batch size the delete phase of `sync_prefix` terminates
without raising, whatever the oracle answers. -/
theorem syncDeletePhase_isOk (dor : DeleteOracle) (tb : Bucket) (pd : PyStr)
    (de dry : Bool) (extras : List Key) (dbs : Int) (hdbs : 1 ≤ dbs) :
    ∃ dcalls dels errs,
      syncDeletePhase dor tb pd de dry extras dbs = (dcalls, .ok (dels, errs)) := by
  cases de with
  | false => exact ⟨_, _, _, syncDeletePhase_not_de dor tb pd dry extras dbs⟩
  | true =>
    cases dry with
    | true => exact ⟨_, _, _, syncDeletePhase_dry dor tb pd extras dbs⟩
    | false => exact ⟨_, _, _, syncDeletePhase_real dor tb pd extras dbs hdbs⟩

/-- In the fixture store the extra destination keys are exactly the 1001
distinct keys. -/
theorem bigStore_extras :
    syncExtras bigStore ['s'] ['t'] [] [] = (List.range 1001).map keyRep := by
  have hsrc : syncSrcRel bigStore ['s'] [] = [] := rfl
  have hdst : syncDstRel bigStore ['t'] [] = (List.range 1001).map keyRep := by
    unfold syncDstRel
    rw [list_objects_no_mask, relativize_nil_pfx]
    have : (bigStore ['t']) = (List.range 1001).map keyRep := rfl
    rw [this]
    exact List.dedup_eq_self.mpr (List.Nodup.map keyRep_inj (List.nodup_range 1001))
  unfold syncExtras
  rw [hsrc, hdst]
  exact List.filter_eq_self.mpr fun x _ => by simp

/-- Chunking a 2500-element list with size 1000 yields exactly three chunks
of 1000, 1000 and 500 elements. -/
theorem chunked_map_length_2500 {l : List PyStr} (h : l.length = 2500) :
    (chunked l 1000).map List.length = [1000, 1000, 500] := by
  have h1 : l ≠ [] := by
    intro he; rw [he] at h; simp at h
  rw [chunked_cons h1 (by norm_num)]
  have d1 : (l.drop 1000).length = 1500 := by rw [List.length_drop]; omega
  have h2 : l.drop 1000 ≠ [] := by
    intro he; rw [he] at d1; simp at d1
  rw [chunked_cons h2 (by norm_num)]
  have d2 : ((l.drop 1000).drop 1000).length = 500 := by
    rw [List.length_drop, d1]
  have h3 : (l.drop 1000).drop 1000 ≠ [] := by
    intro he; rw [he] at d2; simp at d2
  rw [chunked_cons h3 (by norm_num)]
  have d3 : (((l.drop 1000).drop 1000).drop 1000) = [] := by
    apply List.eq_nil_of_length_eq_zero
    rw [List.length_drop, d2]
  rw [d3]
  have e1 : (l.take 1000).length = 1000 := by rw [List.length_take]; omega
  have e2 : ((l.drop 1000).take 1000).length = 1000 := by
    rw [List.length_take, d1]; rfl
  have e3 : (((l.drop 1000).drop 1000).take 1000).length = 500 := by
    rw [List.length_take, d2]; rfl
  rw [show chunked ([] : List PyStr) 1000 = [] from rfl]
  simp only [List.map_cons, List.map_nil]
  rw [e1, e2, e3]

/-- Distinct buckets always pass the overlap guard. -/
theorem syncGuardBad_of_ne {sb tb ps pd : PyStr} (h : sb ≠ tb) :
    syncGuardBad sb tb ps pd = false := by
  unfold syncGuardBad
  rw [beq_eq_false_iff_ne.mpr h, Bool.false_and]

/-- Membership in a relativized listing: a relative key is listed exactly
when some stored key under the prefix strips to it. -/
theorem mem_syncRel {store : Store} {b : Bucket} {p : PyStr} {x : Key} :
    x ∈ relativize (list_objects store b p []) p ↔
      ∃ k, (k ∈ store b ∧ p <+: k) ∧ stripPfx p k = x := by
  rw [mem_relativize]
  constructor
  · rintro ⟨k, hk, rfl⟩
    obtain ⟨h1, h2, _⟩ := mem_list_objects.mp hk
    exact ⟨k, ⟨h1, h2⟩, rfl⟩
  · rintro ⟨k, ⟨h1, h2⟩, rfl⟩
    exact ⟨k, mem_list_objects.mpr ⟨h1, h2, List.nil_suffix⟩, rfl⟩

/-! The claims. -/

/-- C2: whenever the source and destination buckets are equal and the two
prefixes, ignoring trailing slashes, are equal or one is a string prefix of
the other, `sync_prefix` raises a `ValueError` before issuing any call at
all — the returned trace is empty, so in particular no listing and no
mutation ever reaches the store. -/
theorem sync_overlap_guard (store : Store) (ho : HeadOracle) (co : CopyOracle)
    (dor : DeleteOracle) (sb tb : Bucket) (ps pd : PyStr)
    (de : Bool) (cm : String) (dry : Bool) (dbs : Int)
    (hb : sb = tb)
    (hov : rstripSlash ps = rstripSlash pd ∨
      rstripSlash pd <+: rstripSlash ps ∨ rstripSlash ps <+: rstripSlash pd) :
    sync_pfx store ho co dor sb tb ps pd de cm dry dbs =
      ([], .error "Refusing to sync: src/dst prefixes overlap in the same bucket") := by
  unfold sync_pfx
  rw [if_pos]
  unfold syncGuardBad
  subst hb
  simp only [beq_self_eq_true, Bool.true_and, List.isPrefixOf_iff_prefix,
    Bool.or_eq_true, beq_iff_eq, decide_eq_true_eq]
  tauto

/-- C2 witness: syncing `bucketX` prefixes `data/` and `data/sub/` raises the
configuration error with an empty call trace. -/
theorem sync_overlap_guard_witness :
    sync_pfx (fun _ => []) (fun _ _ => none) (fun _ _ _ _ => none)
      (fun _ c => .ok ⟨c, []⟩) ['x'] ['x'] "data/".toList "data/sub/".toList
      false "name" false 1000 =
      ([], .error "Refusing to sync: src/dst prefixes overlap in the same bucket") :=
  sync_overlap_guard _ _ _ _ _ _ _ _ _ _ _ _ rfl
    (Or.inr (Or.inr (by decide)))

/-- C3: in `"name"` comparison mode, for every store (hence for every pair of
relativized source and destination key sets) a non-guarded sync plans to copy
exactly the set difference source-minus-destination and plans to delete
exactly destination-minus-source when `delete_extra` is set and nothing
otherwise; the planned copy count in the stats is the size of that set
difference. -/
theorem sync_name_mode_plan (store : Store) (ho : HeadOracle) (co : CopyOracle)
    (dor : DeleteOracle) (sb tb : Bucket) (ps pd : PyStr)
    (de : Bool) (dbs : Int)
    (hg : syncGuardBad sb tb ps pd = false) :
    ∃ r, (sync_pfx store ho co dor sb tb ps pd de "name" true dbs).2 = .ok r ∧
      r.copied = .pairs
        ((pySorted ((syncSrcRel store sb ps).filter
            (fun x => decide (x ∉ syncDstRel store tb pd)))).map
          (fun x => (joinKey ps x, joinKey pd x))) ∧
      r.deleted = (if de then
        ((pySorted ((syncDstRel store tb pd).filter
            (fun x => decide (x ∉ syncSrcRel store sb ps)))).map
          (joinKey pd)) else []) ∧
      r.stats.to_copy = ((syncSrcRel store sb ps).filter
        (fun x => decide (x ∉ syncDstRel store tb pd))).length := by
  cases de with
  | false =>
    rw [sync_pfx_ok_eq store ho co dor sb tb ps pd false "name" true dbs hg
      (syncDeletePhase_not_de dor tb pd true _ dbs)]
    exact ⟨_, rfl, by simp [syncToCopy_name], by simp, by simp [syncToCopy_name]⟩
  | true =>
    rw [sync_pfx_ok_eq store ho co dor sb tb ps pd true "name" true dbs hg
      (syncDeletePhase_dry dor tb pd _ dbs)]
    refine ⟨_, rfl, by simp [syncToCopy_name], ?_, by simp [syncToCopy_name]⟩
    simp [syncExtras]

/-- C3 witness: with source keys `{a, b}` and destination keys `{b, c}` under
empty prefixes, the plan copies `{a}` and deletes `{c}`. -/
theorem sync_name_mode_plan_witness :
    ∃ r, (sync_pfx
        (fun b => if b = ['s'] then [['a'], ['b']] else [['b'], ['c']])
        (fun _ _ => none) (fun _ _ _ _ => none) (fun _ c => .ok ⟨c, []⟩)
        ['s'] ['t'] [] [] true "name" true 1000).2 = .ok r ∧
      r.copied = .pairs [(['a'], ['a'])] ∧
      r.deleted = [['c']] ∧ r.stats.to_copy = 1 := by
  obtain ⟨r, h1, h2, h3, h4⟩ := sync_name_mode_plan
    (fun b => if b = ['s'] then [['a'], ['b']] else [['b'], ['c']])
    (fun _ _ => none) (fun _ _ _ _ => none) (fun _ c => .ok ⟨c, []⟩)
    ['s'] ['t'] [] [] true 1000 (by decide)
  refine ⟨r, h1, ?_, ?_, ?_⟩
  · rw [h2]; decide
  · rw [h3]; decide
  · rw [h4]; decide

/-- C10: for every integer `delete_batch_size` — zero, negative and
over-1000 values included — `move_by_mask`'s delete phase chunks with the
clamped size, so every issued batch-delete call carries between 1 and 1000
keys, and the issued chunks partition exactly the successfully-copied source
keys (so chunking neither raises nor loses progress). -/
theorem move_delete_batch_clamped (store : Store) (co : CopyOracle)
    (dor : DeleteOracle) (sb tb : Bucket) (pfx sfx pfx_dst : PyStr)
    (dbs : Int) :
    (∀ b ks, S3Call.deleteCall b ks ∈
        (move_by_mask store co dor sb tb pfx sfx pfx_dst false dbs).1 →
        1 ≤ ks.length ∧ ks.length ≤ 1000) ∧
      ((move_by_mask store co dor sb tb pfx sfx pfx_dst false dbs).1.filterMap
          (fun c => match c with
            | S3Call.deleteCall _ ks => some ks
            | _ => none)).flatten =
        (move_by_mask store co dor sb tb pfx sfx pfx_dst false dbs).2.moved.map
          Prod.fst := by
  rw [move_by_mask_real_eq]
  constructor
  · intro b ks hks
    simp only [List.mem_append, List.mem_cons, List.mem_map,
      List.not_mem_nil, or_false] at hks
    rcases hks with (hks | ⟨p, _, hks⟩) | ⟨c, hc, hks⟩
    · exact absurd hks (by simp)
    · exact absurd hks (by simp)
    · obtain ⟨hne, hle⟩ := mem_chunked hc
      cases hks
      exact ⟨List.length_pos.mpr hne, hle.trans (moveChunkSize_bounds dbs).2⟩
  · rw [List.filterMap_append, List.filterMap_append]
    have h1 : List.filterMap (fun c => match c with
        | S3Call.deleteCall _ ks => some ks
        | _ => none) [S3Call.listCall sb pfx] = [] := rfl
    have h2 : ((movePairs store sb pfx sfx pfx_dst).map
        (fun p => S3Call.copyCall sb p.1 tb p.2)).filterMap
          (fun c => match c with
            | S3Call.deleteCall _ ks => some ks
            | _ => none) = [] := by
      induction movePairs store sb pfx sfx pfx_dst with
      | nil => rfl
      | cons p ps ih => simp [ih]
    have h3 : ∀ chunks : List (List PyStr),
        (chunks.map (fun c => S3Call.deleteCall sb c)).filterMap
          (fun c => match c with
            | S3Call.deleteCall _ ks => some ks
            | _ => none) = chunks := by
      intro chunks
      induction chunks with
      | nil => rfl
      | cons c cs ih => simpa using ih
    rw [h1, h2, h3, List.nil_append, List.nil_append]
    exact chunked_flatten _ _ (moveChunkSize_bounds dbs).1

/-- C10 witness: with `delete_batch_size = -7` and one successfully copied
key, the issued batch-delete call has between 1 and 1000 keys. -/
theorem move_delete_batch_clamped_witness :
    1 ≤ ([['b']] : List PyStr).length ∧ ([['b']] : List PyStr).length ≤ 1000 :=
  (move_delete_batch_clamped
      (fun b => if b = ['s'] then [['a'], ['b']] else [])
      (fun _ k _ _ => if k = ['a'] then some "boom" else none)
      (fun _ c => .ok ⟨c, []⟩) ['s'] ['t'] [] [] [] (-7)).1
    ['s'] [['b']] (by decide)

/-- C1: in a real `move_by_mask` run, provided each `delete_objects` response
names only keys it was asked to delete, every key submitted for deletion (in
any batch-delete call of the trace) and every key of the returned
`deleted_source` list belongs to the sources of `moved` — and `moved`
consists exactly of the submitted pairs whose copy succeeded, so a source key
whose copy failed is never deleted. -/
theorem move_deletes_only_copied (store : Store) (co : CopyOracle)
    (dor : DeleteOracle) (sb tb : Bucket) (pfx sfx pfx_dst : PyStr) (dbs : Int)
    (hdel : ∀ b c resp, dor b c = .ok resp → resp.deleted ⊆ c) :
    (∀ b ks, S3Call.deleteCall b ks ∈
        (move_by_mask store co dor sb tb pfx sfx pfx_dst false dbs).1 →
        ks ⊆ (move_by_mask store co dor sb tb pfx sfx pfx_dst false dbs).2.moved.map
          Prod.fst) ∧
      (move_by_mask store co dor sb tb pfx sfx pfx_dst false dbs).2.deleted_source ⊆
        (move_by_mask store co dor sb tb pfx sfx pfx_dst false dbs).2.moved.map
          Prod.fst ∧
      ∀ p ∈ (move_by_mask store co dor sb tb pfx sfx pfx_dst false dbs).2.moved,
        p ∈ movePairs store sb pfx sfx pfx_dst ∧ co sb p.1 tb p.2 = none := by
  rw [move_by_mask_real_eq]
  have hflat := chunked_flatten
    ((parallel_copy co sb tb (movePairs store sb pfx sfx pfx_dst)).1.map Prod.fst)
    (moveChunkSize dbs) (moveChunkSize_bounds dbs).1
  refine ⟨?_, ?_, ?_⟩
  · intro b ks hks
    simp only [List.mem_append, List.mem_cons, List.mem_map,
      List.not_mem_nil, or_false] at hks
    rcases hks with (hks | ⟨p, _, hks⟩) | ⟨c, hc, hks⟩
    · exact absurd hks (by simp)
    · exact absurd hks (by simp)
    · cases hks
      intro x hx
      rw [← hflat]
      exact List.mem_flatten.mpr ⟨ks, hc, hx⟩
  · intro x hx
    rw [← hflat]
    exact moveDelFold_deleted_sub dor sb _ (hdel sb) hx
  · intro p hp
    exact mem_parallel_copy_fst.mp hp

/-- C1 witness: source keys `{a, b}` where the copy of `a` fails — the
deleted-source list is `[b]`, a subset of the successfully copied sources. -/
theorem move_deletes_only_copied_witness :
    (move_by_mask (fun b => if b = ['s'] then [['a'], ['b']] else [])
        (fun _ k _ _ => if k = ['a'] then some "boom" else none)
        (fun _ c => .ok ⟨c, []⟩) ['s'] ['t'] [] [] [] false 1000).2.deleted_source
        = [['b']] ∧
      (move_by_mask (fun b => if b = ['s'] then [['a'], ['b']] else [])
        (fun _ k _ _ => if k = ['a'] then some "boom" else none)
        (fun _ c => .ok ⟨c, []⟩) ['s'] ['t'] [] [] [] false 1000).2.deleted_source ⊆
      (move_by_mask (fun b => if b = ['s'] then [['a'], ['b']] else [])
        (fun _ k _ _ => if k = ['a'] then some "boom" else none)
        (fun _ c => .ok ⟨c, []⟩) ['s'] ['t'] [] [] [] false 1000).2.moved.map
        Prod.fst :=
  ⟨by decide,
   (move_deletes_only_copied (fun b => if b = ['s'] then [['a'], ['b']] else [])
      (fun _ k _ _ => if k = ['a'] then some "boom" else none)
      (fun _ c => .ok ⟨c, []⟩) ['s'] ['t'] [] [] [] 1000
      (by intro b c resp h; cases h; exact fun x hx => hx)).2.1⟩

/-- C8 counterexample: `sync_prefix` returns the full planned to-copy list as
`copied` even when a copy failed — with a single source key `a` whose copy
raises, `copied` is `[a]` while the error list is non-empty, so the returned
"copied" collection is not the set of items whose copy succeeded. -/
theorem sync_copied_contains_failed_item :
    (sync_pfx (fun b => if b = ['s'] then [['a']] else [])
        (fun _ _ => none) (fun _ _ _ _ => some "boom") (fun _ c => .ok ⟨c, []⟩)
        ['s'] ['t'] [] [] false "name" false 1000).2.toOption.map
      (fun r => (r.copied, r.errors_copy)) =
      some (.rels [['a']], ["boom"]) := by
  decide

/-- C8 amended: `move._parallel_copy`'s `copied` list contains exactly the
submitted pairs whose copy succeeded, failed pairs contribute only error
messages, and the list is returned sorted by `(source, destination)` key
regardless of the order in which the pool completed the copies;
`move_by_mask.moved` is that list.  `sync_prefix`'s `copied`, by contrast, is
always the whole sorted to-copy plan, failures included. -/
theorem copied_collections_amended (co : CopyOracle) (sb tb : Bucket)
    (pairs completed : List (PyStr × PyStr)) (hperm : completed.Perm pairs) :
    (parallel_copy co sb tb completed).1 =
        List.insertionSort pairLe
          (pairs.filter (fun p => co sb p.1 tb p.2 = none)) ∧
      (parallel_copy co sb tb completed).1.Sorted pairLe ∧
      (∀ p, p ∈ (parallel_copy co sb tb completed).1 ↔
        p ∈ pairs ∧ co sb p.1 tb p.2 = none) ∧
      (∀ (store : Store) (dor : DeleteOracle) (pfx sfx pfx_dst : PyStr) (dbs : Int),
        (move_by_mask store co dor sb tb pfx sfx pfx_dst false dbs).2.moved =
          (parallel_copy co sb tb (movePairs store sb pfx sfx pfx_dst)).1) ∧
      ∀ (store : Store) (ho : HeadOracle) (dor : DeleteOracle) (ps pd : PyStr)
        (de : Bool) (cm : String) (dbs : Int) (r : SyncResult),
        (sync_pfx store ho co dor sb tb ps pd de cm false dbs).2 = .ok r →
        r.copied = .rels (pySorted (syncToCopy store ho sb tb ps pd cm)) := by
  refine ⟨parallel_copy_fst_of_perm co sb tb hperm, ?_, ?_, ?_, ?_⟩
  · exact List.sorted_insertionSort pairLe _
  · intro p
    rw [mem_parallel_copy_fst]
    exact and_congr_left (fun _ => hperm.mem_iff)
  · intro store dor pfx sfx pfx_dst dbs
    rw [move_by_mask_real_eq]
  · intro store ho dor ps pd de cm dbs r hr
    by_cases hg : syncGuardBad sb tb ps pd = true
    · unfold sync_pfx at hr
      rw [if_pos hg] at hr
      exact absurd hr (by simp)
    · rcases hd : syncDeletePhase dor tb pd de false
        (syncExtras store sb tb ps pd) dbs with ⟨dcalls, dres⟩
      cases dres with
      | error e =>
        rw [sync_pfx_error_eq store ho co dor sb tb ps pd de cm false dbs
          (by simpa using hg) hd] at hr
        exact absurd hr (by simp)
      | ok del =>
        rcases del with ⟨deleted, errdel⟩
        rw [sync_pfx_ok_eq store ho co dor sb tb ps pd de cm false dbs
          (by simpa using hg) hd] at hr
        cases hr
        rfl

/-- C8 amended witness: with submission order `[(a,a), (b,b)]`, completion
order `[(b,b), (a,a)]` and a failing copy of `a`, the copied list is exactly
the sorted successful sublist `[(b,b)]`. -/
theorem copied_collections_amended_witness :
    (parallel_copy (fun _ k _ _ => if k = ['a'] then some "boom" else none)
        ['s'] ['t'] [(['b'], ['b']), (['a'], ['a'])]).1 =
      List.insertionSort pairLe
        ([(['a'], ['a']), (['b'], ['b'])].filter
          (fun p => (fun _ k _ _ => if k = ['a'] then some "boom" else none)
            (['s'] : PyStr) p.1 (['t'] : PyStr) p.2 = none)) :=
  (copied_collections_amended
    (fun _ k _ _ => if k = ['a'] then some "boom" else none) ['s'] ['t']
    [(['a'], ['a']), (['b'], ['b'])] [(['b'], ['b']), (['a'], ['a'])]
    (by decide)).1

/-- Characterization of `copy_pfx` when the overlap guard passes. -/
theorem copy_pfx_guard_false {store : Store} {co : CopyOracle} {sb tb : Bucket}
    {sp dp : PyStr}
    (hguard : (sb == tb && rstripSlash sp == rstripSlash dp) = false) :
    copy_pfx store co sb tb sp dp =
      (S3Call.listCall sb sp ::
         (list_objects store sb sp []).map
           (fun k => S3Call.copyCall sb k tb (dst_key_for sp dp k)),
       .ok (((list_objects store sb sp []).filter
               (fun k => co sb k tb (dst_key_for sp dp k) = none)).length,
            ((list_objects store sb sp []).filter
               (fun k => ¬ co sb k tb (dst_key_for sp dp k) = none)).length)) := by
  unfold copy_pfx
  rw [if_neg (by simp [hguard])]

/-- The only exception `_copy_prefix` can raise is its overlap guard:
per-item copy failures are counted, never re-raised. -/
theorem copy_pfx_error_msg {store : Store} {co : CopyOracle} {sb tb : Bucket}
    {sp dp : PyStr} {e : String}
    (h : (copy_pfx store co sb tb sp dp).2 = .error e) :
    e = "src_prefix and dst_prefix must differ" := by
  by_cases hguard : (sb == tb && rstripSlash sp == rstripSlash dp) = true
  · unfold copy_pfx at h
    rw [if_pos hguard] at h
    exact (Except.error.inj h).symm
  · rw [copy_pfx_guard_false (Bool.eq_false_iff.mpr hguard)] at h
    exact Except.noConfusion h

/-- An error propagated out of the common/addon child loop is always the
overlap-guard message, never a per-item copy failure. -/
theorem copyChildren_error_msg {store : Store} {co : CopyOracle}
    {bucket : Bucket} {sr dr : PyStr} :
    ∀ {names : List PyStr} {e : String},
      (copyChildren store co bucket sr dr names).2 = .error e →
      e = "src_prefix and dst_prefix must differ" := by
  intro names
  induction names with
  | nil => intro e h; exact Except.noConfusion h
  | cons name rest ih =>
    intro e h
    rcases hres : (copy_pfx store co bucket bucket
        (sr ++ name ++ ['/']) (dr ++ name ++ ['/'])).2 with er | counts
    · simp only [copyChildren, hres, Except.error.injEq] at h
      exact h ▸ copy_pfx_error_msg hres
    · simp only [copyChildren, hres] at h
      rcases htail : (copyChildren store co bucket sr dr rest).2 with e2 | l2
      · simp only [htail, Except.map, Except.error.injEq] at h
        exact h ▸ ih htail
      · simp only [htail, Except.map] at h
        exact Except.noConfusion h

/-- Every `(name, counts)` entry produced by the common/addon child loop
equals the result of running `_copy_prefix` on that child alone: one
child's per-item failures do not disturb its siblings' results. -/
theorem copyChildren_ok_entries {store : Store} {co : CopyOracle}
    {bucket : Bucket} {sr dr : PyStr} :
    ∀ {names : List PyStr} {l : List (PyStr × Nat × Nat)},
      (copyChildren store co bucket sr dr names).2 = .ok l →
      ∀ p ∈ l, (copy_pfx store co bucket bucket
        (sr ++ p.1 ++ ['/']) (dr ++ p.1 ++ ['/'])).2 = .ok p.2 := by
  intro names
  induction names with
  | nil =>
    intro l h p hp
    cases Except.ok.inj h
    exact absurd hp (List.not_mem_nil p)
  | cons name rest ih =>
    intro l h p hp
    rcases hres : (copy_pfx store co bucket bucket
        (sr ++ name ++ ['/']) (dr ++ name ++ ['/'])).2 with er | counts
    · simp only [copyChildren, hres] at h
      exact Except.noConfusion h
    · simp only [copyChildren, hres] at h
      rcases htail : (copyChildren store co bucket sr dr rest).2 with e2 | l2
      · simp only [htail, Except.map] at h
        exact Except.noConfusion h
      · simp only [htail, Except.map, Except.ok.injEq] at h
        subst h
        rcases List.mem_cons.mp hp with hpe | hp2
        · subst hpe
          exact hres
        · exact ih htail p hp2

/-- C4 counterexample: `copy_by_mask` (via `copy_files_by_keys`, which has no
per-item error handling) propagates the first copy exception to the caller
and never attempts the remaining keys — here the failure on `a` raises
`boom` and key `b` is never submitted. -/
theorem copy_by_mask_propagates_failure :
    (copy_by_mask (fun b => if b = ['s'] then [['a'], ['b']] else [])
        (fun _ k _ _ => if k = ['a'] then some "boom" else none)
        ['s'] ['t'] [] [] []).2 = .error "boom" ∧
      (copy_by_mask (fun b => if b = ['s'] then [['a'], ['b']] else [])
        (fun _ k _ _ => if k = ['a'] then some "boom" else none)
        ['s'] ['t'] [] [] []).1 =
        [S3Call.listCall ['s'] [], S3Call.copyCall ['s'] ['a'] ['t'] ['a']] := by
  constructor <;> rfl

/-- C4 amended: `sync_prefix` (for a positive batch size), `move_by_mask`
and the common/addon split never raise on per-item copy or delete failures:
sync always returns a result and submits every planned copy no matter which
siblings fail; move accounts for every submitted pair either in `moved` or
in `errors_copy`; `_copy_prefix` (past its overlap guard) submits a copy
for every listed key and returns success/failure counts summing to the
listing, and `copy_common_and_addon_from_roots` can only propagate the
overlap-guard `ValueError` — on success each child's summary entry is
exactly that child's independent `_copy_prefix` result.  `copy_by_mask` /
`copy_files_by_keys`, however, propagate the first per-item exception (see
the counterexample). -/
theorem orchestrators_record_partial_failures (store : Store) (ho : HeadOracle)
    (co : CopyOracle) (dor : DeleteOracle) (sb tb : Bucket) (ps pd : PyStr)
    (de : Bool) (cm : String) (dbs : Int)
    (hg : syncGuardBad sb tb ps pd = false) (hdbs : 1 ≤ dbs) :
    (∃ r, (sync_pfx store ho co dor sb tb ps pd de cm false dbs).2 = .ok r) ∧
      (∀ rel ∈ syncToCopy store ho sb tb ps pd cm,
        S3Call.copyCall sb (joinKey ps rel) tb (joinKey pd rel) ∈
          (sync_pfx store ho co dor sb tb ps pd de cm false dbs).1) ∧
      (∀ (pfx sfx pfx_dst : PyStr) (dbs2 : Int),
        (move_by_mask store co dor sb tb pfx sfx pfx_dst false dbs2).2.moved.length +
          (move_by_mask store co dor sb tb pfx sfx pfx_dst false dbs2).2.errors_copy.length =
          (movePairs store sb pfx sfx pfx_dst).length) ∧
      (∀ (sp dp : PyStr) (c : Nat × Nat),
        (copy_pfx store co sb tb sp dp).2 = .ok c →
          c.1 + c.2 = (list_objects store sb sp []).length ∧
          ∀ k ∈ list_objects store sb sp [],
            S3Call.copyCall sb k tb (dst_key_for sp dp k) ∈
              (copy_pfx store co sb tb sp dp).1) ∧
      (∀ (bucket : Bucket) (sr rr cd ad : PyStr) (e : String),
        (copy_common_and_addon store co bucket sr rr cd ad).2 = .error e →
          e = "src_prefix and dst_prefix must differ") ∧
      ∀ (bucket : Bucket) (sr rr cd ad : PyStr) (s : CommonAddonSummary),
        (copy_common_and_addon store co bucket sr rr cd ad).2 = .ok s →
          (∀ p ∈ s.common, (copy_pfx store co bucket bucket
            (sr ++ p.1 ++ ['/']) (cd ++ p.1 ++ ['/'])).2 = .ok p.2) ∧
          ∀ p ∈ s.addon, (copy_pfx store co bucket bucket
            (sr ++ p.1 ++ ['/']) (ad ++ p.1 ++ ['/'])).2 = .ok p.2 := by
  obtain ⟨dcalls, dels, errs, hd⟩ := syncDeletePhase_isOk dor tb pd de false
    (syncExtras store sb tb ps pd) dbs hdbs
  rw [sync_pfx_ok_eq store ho co dor sb tb ps pd de cm false dbs hg hd]
  refine ⟨⟨_, rfl⟩, ?_, ?_, ?_, ?_, ?_⟩
  · intro rel hrel
    simp only [if_neg Bool.false_ne_true, List.append_assoc, List.mem_append,
      List.mem_map]
    right; left
    exact ⟨rel, mem_pySorted.mpr hrel, rfl⟩
  · intro pfx sfx pfx_dst dbs2
    rw [move_by_mask_real_eq]
    show (parallel_copy co sb tb (movePairs store sb pfx sfx pfx_dst)).1.length +
      (parallel_copy co sb tb (movePairs store sb pfx sfx pfx_dst)).2.length =
      (movePairs store sb pfx sfx pfx_dst).length
    unfold parallel_copy
    rw [List.length_insertionSort, length_filterMap_eq_length_filter]
    rw [show ((movePairs store sb pfx sfx pfx_dst).filter
        (fun p => (co sb p.1 tb p.2).isSome)) =
      ((movePairs store sb pfx sfx pfx_dst).filter
        (fun p => !(decide (co sb p.1 tb p.2 = none)))) from
      List.filter_congr (fun p _ => by cases co sb p.1 tb p.2 <;> simp)]
    exact length_filter_add_length_filter_not _ _
  · intro sp dp c hok
    have hguard : (sb == tb && rstripSlash sp == rstripSlash dp) = false := by
      cases hg2 : (sb == tb && rstripSlash sp == rstripSlash dp) with
      | false => rfl
      | true =>
        unfold copy_pfx at hok
        rw [if_pos hg2] at hok
        exact Except.noConfusion hok
    rw [copy_pfx_guard_false hguard] at hok
    cases Except.ok.inj hok
    refine ⟨?_, ?_⟩
    · show (List.filter _ _).length + (List.filter _ _).length = _
      rw [show ((list_objects store sb sp []).filter
          (fun k => decide (¬ co sb k tb (dst_key_for sp dp k) = none))) =
        ((list_objects store sb sp []).filter
          (fun k => !(decide (co sb k tb (dst_key_for sp dp k) = none)))) from
        List.filter_congr (fun k _ => by simp)]
      exact length_filter_add_length_filter_not _ _
    · intro k hk
      rw [copy_pfx_guard_false hguard]
      exact List.mem_cons.mpr (Or.inr (List.mem_map.mpr ⟨k, hk, rfl⟩))
  · intro bucket sr rr cd ad e h
    rcases hc : (copyChildren store co bucket sr cd
        (pySorted ((list_pfx_names store bucket sr).filter
          (fun n => decide (n ∈ list_pfx_names store bucket rr))))).2
      with ec | centries
    · simp only [copy_common_and_addon, hc, Except.error.injEq] at h
      exact h ▸ copyChildren_error_msg hc
    · simp only [copy_common_and_addon, hc] at h
      rcases ha : (copyChildren store co bucket sr ad
          (pySorted ((list_pfx_names store bucket sr).filter
            (fun n => decide (n ∉ list_pfx_names store bucket rr))))).2
        with ea | aentries
      · simp only [ha, Except.error.injEq] at h
        exact h ▸ copyChildren_error_msg ha
      · simp only [ha] at h
        exact Except.noConfusion h
  · intro bucket sr rr cd ad s hs
    rcases hc : (copyChildren store co bucket sr cd
        (pySorted ((list_pfx_names store bucket sr).filter
          (fun n => decide (n ∈ list_pfx_names store bucket rr))))).2
      with ec | centries
    · simp only [copy_common_and_addon, hc] at hs
      exact Except.noConfusion hs
    · simp only [copy_common_and_addon, hc] at hs
      rcases ha : (copyChildren store co bucket sr ad
          (pySorted ((list_pfx_names store bucket sr).filter
            (fun n => decide (n ∉ list_pfx_names store bucket rr))))).2
        with ea | aentries
      · simp only [ha] at hs
        exact Except.noConfusion hs
      · simp only [ha, Except.ok.injEq] at hs
        subst hs
        refine ⟨?_, ?_⟩
        · intro p hp
          exact copyChildren_ok_entries hc p hp
        · intro p hp
          exact copyChildren_ok_entries ha p hp

/-- C4 amended witness: a sync whose only copy fails still returns a result
value. -/
theorem orchestrators_record_partial_failures_witness :
    ∃ r, (sync_pfx (fun b => if b = ['s'] then [['a']] else [])
        (fun _ _ => none) (fun _ _ _ _ => some "boom") (fun _ c => .ok ⟨c, []⟩)
        ['s'] ['t'] [] [] true "name" false 1000).2 = .ok r :=
  (orchestrators_record_partial_failures (fun b => if b = ['s'] then [['a']] else [])
    (fun _ _ => none) (fun _ _ _ _ => some "boom") (fun _ c => .ok ⟨c, []⟩)
    ['s'] ['t'] [] [] true "name" 1000 (by decide) (by decide)).1

set_option maxRecDepth 40000 in
/-- C5 counterexample: `sync_prefix` does not chunk by `min(size, 1000)` —
with `delete_batch_size = 1001` and 1001 extra destination keys it issues a
single batch-delete call carrying all 1001 keys (more than the claimed 1000
cap); with `delete_batch_size = 0` it raises `ValueError` instead of
chunking; and with a negative `delete_batch_size` the slicing `range` is
empty, so despite a non-empty extras list no batch-delete call is issued at
all (instead of one call per chunk). -/
theorem sync_delete_batching_unclamped :
    S3Call.deleteCall ['t'] (pySorted (syncExtras bigStore ['s'] ['t'] [] [])) ∈
        (sync_pfx bigStore (fun _ _ => none) (fun _ _ _ _ => none)
          (fun _ c => .ok ⟨c, []⟩) ['s'] ['t'] [] [] true "name" false 1001).1 ∧
      (pySorted (syncExtras bigStore ['s'] ['t'] [] [])).length = 1001 ∧
      (sync_pfx (fun b => if b = ['t'] then [['x']] else []) (fun _ _ => none)
          (fun _ _ _ _ => none) (fun _ c => .ok ⟨c, []⟩)
          ['s'] ['t'] [] [] true "name" false 0).2 =
        .error "ValueError: range() arg 3 must not be zero" ∧
      (sync_pfx (fun b => if b = ['t'] then [['x']] else []) (fun _ _ => none)
          (fun _ _ _ _ => none) (fun _ c => .ok ⟨c, []⟩)
          ['s'] ['t'] [] [] true "name" false (-5)).1.filter S3Call.isMutation
        = [] ∧
      (sync_pfx (fun b => if b = ['t'] then [['x']] else []) (fun _ _ => none)
          (fun _ _ _ _ => none) (fun _ c => .ok ⟨c, []⟩)
          ['s'] ['t'] [] [] true "name" false (-5)).2.toOption.map
        (fun r => (r.deleted, r.errors_delete)) = some ([], []) := by
  have hlen : (pySorted (syncExtras bigStore ['s'] ['t'] [] [])).length = 1001 := by
    rw [pySorted_length, bigStore_extras, List.length_map, List.length_range]
  refine ⟨?_, hlen, by rfl, by rfl, by rfl⟩
  have hmapnil : (pySorted (syncExtras bigStore ['s'] ['t'] [] [])).map (joinKey []) =
      pySorted (syncExtras bigStore ['s'] ['t'] [] []) := by
    have : ∀ l : List PyStr, l.map (joinKey []) = l := by
      intro l
      induction l with
      | nil => rfl
      | cons x xs ih => simp [joinKey_nil, ih]
    exact this _
  rw [sync_pfx_ok_eq bigStore (fun _ _ => none) (fun _ _ _ _ => none)
    (fun _ c => .ok ⟨c, []⟩) ['s'] ['t'] [] [] true "name" false 1001 rfl
    (syncDeletePhase_real (fun _ c => .ok ⟨c, []⟩) ['t'] []
      (syncExtras bigStore ['s'] ['t'] [] []) 1001 (by norm_num))]
  simp only [List.append_assoc, List.mem_append]
  right; right
  rw [hmapnil]
  have hne : pySorted (syncExtras bigStore ['s'] ['t'] [] []) ≠ [] := by
    intro he; rw [he] at hlen; simp at hlen
  rw [show ((1001 : Int)).toNat = 1001 from rfl, chunked_cons hne (by norm_num)]
  have htake : (pySorted (syncExtras bigStore ['s'] ['t'] [] [])).take 1001 =
      pySorted (syncExtras bigStore ['s'] ['t'] [] []) :=
    List.take_of_length_le (by rw [hlen])
  rw [List.map_cons, htake]
  exact List.mem_cons_self _ _

/-- C5 amended: for every positive `delete_batch_size`, `sync_prefix` issues
one batch-delete call per consecutive `delete_batch_size`-sized chunk of the
extra destination keys — each call carries between 1 and `delete_batch_size`
keys (no 1000 cap: only `move_by_mask` clamps, see C10) and the chunks
cover the key list exactly; in particular 2500 keys with
`delete_batch_size = 1000` yield exactly 3 calls of 1000, 1000 and 500
keys.  A zero batch size raises `ValueError` once there is work to delete,
and a negative batch size makes the slicing range empty, so the run
completes with no batch-delete call and nothing deleted. -/
theorem delete_batching_amended (store : Store) (ho : HeadOracle)
    (co : CopyOracle) (dor : DeleteOracle) (sb tb : Bucket) (ps pd : PyStr)
    (cm : String) (dbs : Int)
    (hg : syncGuardBad sb tb ps pd = false) (hdbs : 1 ≤ dbs) :
    ((sync_pfx store ho co dor sb tb ps pd true cm false dbs).1.filterMap
        (fun c => match c with
          | S3Call.deleteCall _ ks => some ks
          | _ => none)) =
      chunked ((pySorted (syncExtras store sb tb ps pd)).map (joinKey pd))
        dbs.toNat ∧
      (∀ c ∈ chunked ((pySorted (syncExtras store sb tb ps pd)).map (joinKey pd))
          dbs.toNat, 1 ≤ c.length ∧ c.length ≤ dbs.toNat) ∧
      (chunked ((pySorted (syncExtras store sb tb ps pd)).map (joinKey pd))
          dbs.toNat).flatten =
        (pySorted (syncExtras store sb tb ps pd)).map (joinKey pd) ∧
      (((pySorted (syncExtras store sb tb ps pd)).map (joinKey pd)).length = 2500 →
        dbs = 1000 →
        (chunked ((pySorted (syncExtras store sb tb ps pd)).map (joinKey pd))
          dbs.toNat).map List.length = [1000, 1000, 500]) ∧
      ∀ dbs2 : Int, dbs2 < 0 →
        ((sync_pfx store ho co dor sb tb ps pd true cm false dbs2).1.filterMap
          (fun c => match c with
            | S3Call.deleteCall _ ks => some ks
            | _ => none)) = [] ∧
        ∃ r, (sync_pfx store ho co dor sb tb ps pd true cm false dbs2).2 = .ok r ∧
          r.deleted = [] ∧ r.errors_delete = [] := by
  rw [sync_pfx_ok_eq store ho co dor sb tb ps pd true cm false dbs hg
    (syncDeletePhase_real dor tb pd (syncExtras store sb tb ps pd) dbs hdbs)]
  refine ⟨?_, ?_, ?_, ?_, ?_⟩
  · rw [List.filterMap_append, List.filterMap_append]
    have h1 : List.filterMap (fun c => match c with
        | S3Call.deleteCall _ ks => some ks
        | _ => none) [S3Call.listCall sb ps, S3Call.listCall tb pd] = [] := rfl
    have h2 : ((pySorted (syncToCopy store ho sb tb ps pd cm)).map
        (fun r => S3Call.copyCall sb (joinKey ps r) tb (joinKey pd r))).filterMap
          (fun c => match c with
            | S3Call.deleteCall _ ks => some ks
            | _ => none) = [] := by
      induction pySorted (syncToCopy store ho sb tb ps pd cm) with
      | nil => rfl
      | cons r rs ih => simp [ih]
    have h3 : ∀ chunks : List (List PyStr),
        (chunks.map (fun c => S3Call.deleteCall tb c)).filterMap
          (fun c => match c with
            | S3Call.deleteCall _ ks => some ks
            | _ => none) = chunks := by
      intro chunks
      induction chunks with
      | nil => rfl
      | cons c cs ih => simp [ih]
    rw [if_neg Bool.false_ne_true, h1, h2, h3, List.nil_append, List.nil_append]
  · intro c hc
    obtain ⟨hne, hle⟩ := mem_chunked hc
    exact ⟨List.length_pos.mpr hne, hle⟩
  · exact chunked_flatten _ _ (by omega)
  · intro hlen hdbs1000
    subst hdbs1000
    exact chunked_map_length_2500 hlen
  · intro dbs2 hneg
    rw [sync_pfx_ok_eq store ho co dor sb tb ps pd true cm false dbs2 hg
      (syncDeletePhase_negative dor tb pd (syncExtras store sb tb ps pd) dbs2 hneg)]
    refine ⟨?_, _, rfl, rfl, rfl⟩
    rw [List.filterMap_append, List.filterMap_append]
    have h1 : List.filterMap (fun c => match c with
        | S3Call.deleteCall _ ks => some ks
        | _ => none) [S3Call.listCall sb ps, S3Call.listCall tb pd] = [] := rfl
    have h2 : ((pySorted (syncToCopy store ho sb tb ps pd cm)).map
        (fun r => S3Call.copyCall sb (joinKey ps r) tb (joinKey pd r))).filterMap
          (fun c => match c with
            | S3Call.deleteCall _ ks => some ks
            | _ => none) = [] := by
      induction pySorted (syncToCopy store ho sb tb ps pd cm) with
      | nil => rfl
      | cons r rs ih => simp [ih]
    rw [if_neg Bool.false_ne_true, h1, h2]
    rfl

/-- C5 amended witness: one extra key with batch size 1000 — the single
issued chunk covers the key list exactly. -/
theorem delete_batching_amended_witness :
    (chunked ((pySorted (syncExtras (fun b => if b = ['t'] then [['x']] else [])
          ['s'] ['t'] [] [])).map (joinKey [])) ((1000 : Int)).toNat).flatten =
      (pySorted (syncExtras (fun b => if b = ['t'] then [['x']] else [])
          ['s'] ['t'] [] [])).map (joinKey []) :=
  (delete_batching_amended (fun b => if b = ['t'] then [['x']] else [])
    (fun _ _ => none) (fun _ _ _ _ => none) (fun _ c => .ok ⟨c, []⟩)
    ['s'] ['t'] [] [] "name" 1000 (by decide) (by decide)).2.2.1

/-- C6 counterexample: with `delete_extra=False` and one extra destination
key, the dry run reports `to_delete = 1` in its stats while the real run —
which performs no deletion and no mutation at all — reports `to_delete = 0`,
so the dry-run counts are not identical to the real run's would-be counts. -/
theorem sync_dry_run_stats_mismatch :
    ((sync_pfx (fun b => if b = ['t'] then [['x']] else []) (fun _ _ => none)
        (fun _ _ _ _ => none) (fun _ c => .ok ⟨c, []⟩)
        ['s'] ['t'] [] [] false "name" true 1000).2.toOption.map
      (fun r => r.stats.to_delete)) = some 1 ∧
      ((sync_pfx (fun b => if b = ['t'] then [['x']] else []) (fun _ _ => none)
        (fun _ _ _ _ => none) (fun _ c => .ok ⟨c, []⟩)
        ['s'] ['t'] [] [] false "name" false 1000).2.toOption.map
      (fun r => r.stats.to_delete)) = some 0 ∧
      ((sync_pfx (fun b => if b = ['t'] then [['x']] else []) (fun _ _ => none)
        (fun _ _ _ _ => none) (fun _ c => .ok ⟨c, []⟩)
        ['s'] ['t'] [] [] false "name" false 1000).1.filter S3Call.isMutation) = [] := by
  refine ⟨by decide, by decide, by decide⟩

/-- C6 amended: dry runs of `sync_prefix` and `move_by_mask` issue zero
mutating calls, tag their stats `dry_run = true`, and return the full
planned copy list; the planned copy count equals the real run's, and — when
`delete_extra` is set and the delete oracle succeeds on every chunk — the
dry-run planned delete list and `to_delete` count coincide with the real
run's.  (Without `delete_extra` the dry-run `to_delete` stat still counts
the extras, unlike a real run: see the counterexample.) -/
theorem dry_run_previews_amended (store : Store) (ho : HeadOracle)
    (co : CopyOracle) (dor : DeleteOracle) (sb tb : Bucket) (ps pd : PyStr)
    (de : Bool) (cm : String) (dbs : Int)
    (hg : syncGuardBad sb tb ps pd = false) (hdbs : 1 ≤ dbs)
    (hdor : ∀ c, dor tb c = .ok ⟨c, []⟩) :
    (sync_pfx store ho co dor sb tb ps pd de cm true dbs).1.filter
        S3Call.isMutation = [] ∧
      (∀ (pfx sfx pfx_dst : PyStr) (dbs2 : Int) (co2 : CopyOracle),
        (move_by_mask store co2 dor sb tb pfx sfx pfx_dst true dbs2).1.filter
            S3Call.isMutation = [] ∧
          (move_by_mask store co2 dor sb tb pfx sfx pfx_dst true dbs2).2.stats.dry_run
            = true ∧
          (move_by_mask store co2 dor sb tb pfx sfx pfx_dst true dbs2).2.stats.total =
            (move_by_mask store co2 dor sb tb pfx sfx pfx_dst false dbs2).2.stats.total ∧
          (move_by_mask store co2 dor sb tb pfx sfx pfx_dst true dbs2).2.moved =
            movePairs store sb pfx sfx pfx_dst) ∧
      ∃ r r2,
        (sync_pfx store ho co dor sb tb ps pd de cm true dbs).2 = .ok r ∧
        (sync_pfx store ho co dor sb tb ps pd de cm false dbs).2 = .ok r2 ∧
        r.stats.dry_run = true ∧
        r.copied = .pairs ((pySorted (syncToCopy store ho sb tb ps pd cm)).map
          (fun x => (joinKey ps x, joinKey pd x))) ∧
        r.stats.to_copy = r2.stats.to_copy ∧
        (de = true →
          r.deleted = (pySorted (syncExtras store sb tb ps pd)).map (joinKey pd) ∧
          r2.deleted = r.deleted ∧ r2.stats.to_delete = r.stats.to_delete) := by
  cases de with
  | false =>
    rw [sync_pfx_ok_eq store ho co dor sb tb ps pd false cm true dbs hg
        (syncDeletePhase_not_de dor tb pd true _ dbs),
      sync_pfx_ok_eq store ho co dor sb tb ps pd false cm false dbs hg
        (syncDeletePhase_not_de dor tb pd false _ dbs)]
    refine ⟨by simp [S3Call.isMutation], ?_, ?_⟩
    · intro pfx sfx pfx_dst dbs2 co2
      exact ⟨rfl, rfl, rfl, rfl⟩
    · exact ⟨_, _, rfl, rfl, rfl, by simp, by simp, fun h => by cases h⟩
  | true =>
    have hchunks : ∀ c ∈ chunked
        ((pySorted (syncExtras store sb tb ps pd)).map (joinKey pd)) dbs.toNat,
        dor tb c = .ok ⟨c, []⟩ := fun c _ => hdor c
    have hdel2 := syncDeletePhase_real dor tb pd (syncExtras store sb tb ps pd)
      dbs hdbs
    rw [syncDelFold_all_ok dor tb _ hchunks,
      chunked_flatten _ _ (by omega)] at hdel2
    rw [sync_pfx_ok_eq store ho co dor sb tb ps pd true cm true dbs hg
        (syncDeletePhase_dry dor tb pd _ dbs),
      sync_pfx_ok_eq store ho co dor sb tb ps pd true cm false dbs hg hdel2]
    refine ⟨by simp [S3Call.isMutation], ?_, ?_⟩
    · intro pfx sfx pfx_dst dbs2 co2
      exact ⟨rfl, rfl, rfl, rfl⟩
    · refine ⟨_, _, rfl, rfl, rfl, by simp, rfl, fun _ => ⟨by simp, by simp, ?_⟩⟩
      simp [pySorted_length]

/-- C6 amended witness: dry and real sync with one extra destination key and
`delete_extra=True` agree on planned deletions and perform no mutation in
the dry run. -/
theorem dry_run_previews_amended_witness :
    (sync_pfx (fun b => if b = ['t'] then [['x']] else []) (fun _ _ => none)
      (fun _ _ _ _ => none) (fun _ c => .ok ⟨c, []⟩)
      ['s'] ['t'] [] [] true "name" true 1000).1.filter S3Call.isMutation = [] :=
  (dry_run_previews_amended (fun b => if b = ['t'] then [['x']] else [])
    (fun _ _ => none) (fun _ _ _ _ => none) (fun _ c => .ok ⟨c, []⟩)
    ['s'] ['t'] [] [] true "name" 1000 (by decide) (by decide)
    (fun c => rfl)).1

/-- C7: under `"etag"` or `"size"` comparison mode, for a relative key present
on both sides: the HEAD stage cannot raise — the sync still returns a result
for any head oracle — and the key joins the copy set exactly when the
compared metadata field differs, where a failed HEAD contributes the
`(None, None)` sentinel.  In particular metadata missing on both sides
compares equal and the key is not re-copied, while one-sided presence of the
compared field is a mismatch and forces a re-copy. -/
theorem sync_deep_compare_membership (store : Store) (ho : HeadOracle)
    (sb tb : Bucket) (ps pd : PyStr) (cm : String) (rel : Key)
    (hcm : cm = "etag" ∨ cm = "size")
    (hsrc : rel ∈ syncSrcRel store sb ps)
    (hdst : rel ∈ syncDstRel store tb pd) :
    (∀ (co : CopyOracle) (dor : DeleteOracle) (de : Bool) (dbs : Int),
        syncGuardBad sb tb ps pd = false →
        ∃ r, (sync_pfx store ho co dor sb tb ps pd de cm true dbs).2 = .ok r) ∧
      (ho sb (joinKey ps rel) = none → ho tb (joinKey pd rel) = none →
        rel ∉ syncToCopy store ho sb tb ps pd cm) ∧
      (cm = "etag" →
        (rel ∈ syncToCopy store ho sb tb ps pd cm ↔
          (head_map ho sb (joinKey ps rel)).1 ≠ (head_map ho tb (joinKey pd rel)).1)) ∧
      (cm = "size" →
        (rel ∈ syncToCopy store ho sb tb ps pd cm ↔
          (head_map ho sb (joinKey ps rel)).2 ≠ (head_map ho tb (joinKey pd rel)).2)) := by
  have hcommon : rel ∈ syncToCopy store ho sb tb ps pd cm ↔
      metaDiff ho sb tb ps pd cm rel = true := by
    unfold syncToCopy deepDiffSet
    rw [if_pos hcm]
    simp [List.mem_append, List.mem_filter, hsrc, hdst]
  refine ⟨?_, ?_, ?_, ?_⟩
  · intro co dor de dbs hg
    cases de with
    | false =>
      rw [sync_pfx_ok_eq store ho co dor sb tb ps pd false cm true dbs hg
        (syncDeletePhase_not_de dor tb pd true _ dbs)]
      exact ⟨_, rfl⟩
    | true =>
      rw [sync_pfx_ok_eq store ho co dor sb tb ps pd true cm true dbs hg
        (syncDeletePhase_dry dor tb pd _ dbs)]
      exact ⟨_, rfl⟩
  · intro h1 h2 hmem
    have := hcommon.mp hmem
    rcases hcm with hcm | hcm <;>
      simp [metaDiff, head_map, h1, h2, hcm] at this
  · intro hcm1
    subst hcm1
    rw [hcommon]
    simp [metaDiff]
  · intro hcm1
    subst hcm1
    rw [hcommon]
    simp [metaDiff]

/-- C7 witness: a key present on both sides whose HEAD fails on both sides is
not re-copied under `"etag"` mode. -/
theorem sync_deep_compare_membership_witness :
    ['k'] ∉ syncToCopy (fun _ => [['k']]) (fun _ _ => none)
      ['s'] ['t'] [] [] "etag" :=
  (sync_deep_compare_membership (fun _ => [['k']]) (fun _ _ => none)
    ['s'] ['t'] [] [] "etag" ['k'] (Or.inl rfl) (by decide) (by decide)).2.1
    rfl rfl

/-- Stripping trailing slashes leaves an initial segment of the string. -/
theorem rstripSlash_isPfx (p : PyStr) : rstripSlash p <+: p := by
  have h : (p.reverse.dropWhile (fun c => c = '/')) <:+ p.reverse :=
    List.dropWhile_suffix _
  have h2 := List.reverse_prefix.mpr h
  rwa [List.reverse_reverse] at h2

/-- A passing overlap guard on a same-bucket sync means the two prefixes
are incomparable after stripping trailing slashes. -/
theorem syncGuardBad_false_same {sb ps pd : PyStr}
    (hg : syncGuardBad sb sb ps pd = false) :
    ¬ rstripSlash ps <+: rstripSlash pd ∧
      ¬ rstripSlash pd <+: rstripSlash ps := by
  unfold syncGuardBad at hg
  simp only [beq_self_eq_true, Bool.true_and, Bool.or_eq_false_iff] at hg
  constructor
  · intro hp
    have h := List.isPrefixOf_iff_prefix.mpr hp
    rw [hg.2] at h
    exact Bool.false_ne_true h
  · intro hp
    have h := List.isPrefixOf_iff_prefix.mpr hp
    rw [hg.1.2] at h
    exact Bool.false_ne_true h

/-- With a passing same-bucket guard, no destination-side key ever carries
the source prefix: two prefixes of one key are comparable, so the guard
would have fired. -/
theorem guard_false_no_cross {sb ps pd : PyStr}
    (hg : syncGuardBad sb sb ps pd = false) (r : PyStr) :
    ¬ ps <+: joinKey pd r := by
  obtain ⟨h1, h2⟩ := syncGuardBad_false_same hg
  intro hp
  have hs : rstripSlash ps <+: joinKey pd r := (rstripSlash_isPfx ps).trans hp
  have hd : rstripSlash pd <+: joinKey pd r :=
    (rstripSlash_isPfx pd).trans (pfx_prefix_joinKey pd r)
  rcases List.prefix_or_prefix_of_prefix hs hd with h | h
  · exact h1 h
  · exact h2 h

/-- With a passing same-bucket guard, source-side and destination-side full
keys are always distinct. -/
theorem guard_false_key_ne {sb ps pd : PyStr}
    (hg : syncGuardBad sb sb ps pd = false) (x r : PyStr) :
    joinKey ps x ≠ joinKey pd r := by
  intro he
  exact guard_false_no_cross hg r (he ▸ pfx_prefix_joinKey ps x)

/-- `to_copy_rel` is a genuine set: its list form is duplicate-free. -/
theorem syncToCopy_nodup (store : Store) (ho : HeadOracle) (sb tb : Bucket)
    (ps pd : PyStr) (cm : String) :
    (syncToCopy store ho sb tb ps pd cm).Nodup := by
  unfold syncToCopy
  refine List.Nodup.append ?_ ?_ ?_
  · exact (relativize_nodup _ _).filter _
  · unfold deepDiffSet
    split
    · exact ((relativize_nodup _ _).filter _).filter _
    · exact List.nodup_nil
  · intro x hx1 hx2
    have hnx : x ∉ syncDstRel store tb pd := by
      have := (List.mem_filter.mp hx1).2
      simpa using this
    unfold deepDiffSet at hx2
    split at hx2
    · have := (List.mem_filter.mp (List.mem_filter.mp hx2).1).2
      exact hnx (by simpa using this)
    · exact List.not_mem_nil x hx2

/-- Every planned copy is a source-side relative key, in every comparison
mode. -/
theorem syncToCopy_sub_src {store : Store} {ho : HeadOracle} {sb tb : Bucket}
    {ps pd : PyStr} {cm : String} {x : Key}
    (hx : x ∈ syncToCopy store ho sb tb ps pd cm) :
    x ∈ syncSrcRel store sb ps := by
  rcases List.mem_append.mp hx with h | h
  · exact (List.mem_filter.mp h).1
  · unfold deepDiffSet at h
    split at h
    · exact (List.mem_filter.mp (List.mem_filter.mp h).1).1
    · exact absurd h (List.not_mem_nil x)

/-- The name difference source-minus-destination joins the copy plan in
every comparison mode. -/
theorem syncToCopy_of_diff {store : Store} {ho : HeadOracle} {sb tb : Bucket}
    {ps pd : PyStr} {cm : String} {x : Key}
    (hx : x ∈ syncSrcRel store sb ps) (hnx : x ∉ syncDstRel store tb pd) :
    x ∈ syncToCopy store ho sb tb ps pd cm :=
  List.mem_append.mpr (Or.inl (List.mem_filter.mpr ⟨hx, by simpa using hnx⟩))

/-- The deep comparison of one key only reads the HEAD oracle at that key's
two full keys. -/
theorem metaDiff_congr {ho ho2 : HeadOracle} {sb tb : Bucket} {ps pd : PyStr}
    {cm : String} {r : Key}
    (h1 : ho2 sb (joinKey ps r) = ho sb (joinKey ps r))
    (h2 : ho2 tb (joinKey pd r) = ho tb (joinKey pd r)) :
    metaDiff ho2 sb tb ps pd cm r = metaDiff ho sb tb ps pd cm r := by
  unfold metaDiff head_map
  rw [h1, h2]

/-- Equal HEAD answers on both sides make the deep comparison report no
difference. -/
theorem metaDiff_false_of_eq {ho2 : HeadOracle} {sb tb : Bucket} {ps pd : PyStr}
    {cm : String} {r : Key}
    (h : ho2 sb (joinKey ps r) = ho2 tb (joinKey pd r)) :
    metaDiff ho2 sb tb ps pd cm r = false := by
  unfold metaDiff head_map
  rw [h]
  split_ifs <;> simp

/-- Outside the `etag` and `size` modes the deep comparison never fires. -/
theorem metaDiff_shallow {ho : HeadOracle} {sb tb : Bucket} {ps pd : PyStr}
    {cm : String} {r : Key} (h1 : ¬ cm = "etag") (h2 : ¬ cm = "size") :
    metaDiff ho sb tb ps pd cm r = false := by
  simp [metaDiff, h1, h2]

/-- C9: running sync twice with `delete_extra=True` is idempotent, in every
comparison mode and for every bucket/prefix configuration that passes the
overlap guard — including same-bucket syncs of incomparable prefixes.  The
first real run's trace is replayed against both the store and the HEAD
metadata (`applyCalls` / `applyCallsMeta` — the claim's hypothesis that
every first-run copy and delete succeeds and no external mutation occurs
between runs); the second run then computes an empty copy set and an empty
delete set.  A positive batch size is assumed so the first run itself
cannot raise. -/
theorem sync_idempotent (store : Store) (ho : HeadOracle) (co : CopyOracle)
    (dor : DeleteOracle) (sb tb : Bucket) (ps pd : PyStr) (cm : String)
    (dbs : Int)
    (hg : syncGuardBad sb tb ps pd = false) (hdbs : 1 ≤ dbs) :
    ∃ r2, (sync_pfx
        (applyCalls store (sync_pfx store ho co dor sb tb ps pd true cm false dbs).1)
        (applyCallsMeta ho (sync_pfx store ho co dor sb tb ps pd true cm false dbs).1)
        co dor sb tb ps pd true cm false dbs).2 = .ok r2 ∧
      r2.copied = .rels [] ∧ r2.deleted = [] ∧
      r2.stats.to_copy = 0 ∧ r2.stats.to_delete = 0 := by
  have htr : (sync_pfx store ho co dor sb tb ps pd true cm false dbs).1 =
      [S3Call.listCall sb ps, S3Call.listCall tb pd] ++
        (pySorted (syncToCopy store ho sb tb ps pd cm)).map (fun r =>
          S3Call.copyCall sb (joinKey ps r) tb (joinKey pd r)) ++
        (chunked ((pySorted (syncExtras store sb tb ps pd)).map (joinKey pd))
          dbs.toNat).map (fun c => S3Call.deleteCall tb c) := by
    rw [sync_pfx_ok_eq store ho co dor sb tb ps pd true cm false dbs hg
      (syncDeletePhase_real dor tb pd _ dbs hdbs)]
    simp
  set store2 := applyCalls store
    (sync_pfx store ho co dor sb tb ps pd true cm false dbs).1 with hstore2
  set ho2 := applyCallsMeta ho
    (sync_pfx store ho co dor sb tb ps pd true cm false dbs).1 with hho2
  have hs2 : ∀ b, store2 b =
      if b = tb then
        (((pySorted (syncToCopy store ho sb tb ps pd cm)).map (joinKey pd)).reverse
            ++ store b).filter (fun k => decide
          (k ∉ (pySorted (syncExtras store sb tb ps pd)).map (joinKey pd)))
      else store b := by
    intro b
    rw [hstore2, htr, applyCalls_append, applyCalls_append]
    have h0 : applyCalls store [S3Call.listCall sb ps, S3Call.listCall tb pd]
        = store := rfl
    rw [h0, applyCalls_deletes, chunked_flatten _ _ (by omega)]
    by_cases hb : b = tb
    · rw [if_pos hb, applyCalls_copies, if_pos hb, if_pos hb, hb]
    · rw [if_neg hb, if_neg hb, applyCalls_copies, if_neg hb]
  have hsplit : ho2 = applyCallsMeta (applyCallsMeta ho
      ((pySorted (syncToCopy store ho sb tb ps pd cm)).map (fun r =>
        S3Call.copyCall sb (joinKey ps r) tb (joinKey pd r))))
      ((chunked ((pySorted (syncExtras store sb tb ps pd)).map (joinKey pd))
        dbs.toNat).map (fun c => S3Call.deleteCall tb c)) := by
    rw [hho2, htr, applyCallsMeta_append, applyCallsMeta_append]
    rfl
  have hdelmem : ∀ c ∈ chunked ((pySorted (syncExtras store sb tb ps pd)).map
        (joinKey pd)) dbs.toNat, ∀ k ∈ c,
      ∃ y ∈ syncExtras store sb tb ps pd, joinKey pd y = k := by
    intro c hc k hk
    have hkl : k ∈ (pySorted (syncExtras store sb tb ps pd)).map (joinKey pd) := by
      rw [← chunked_flatten ((pySorted (syncExtras store sb tb ps pd)).map
        (joinKey pd)) dbs.toNat (by omega)]
      exact List.mem_flatten.mpr ⟨c, hc, hk⟩
    rw [List.mem_map] at hkl
    obtain ⟨y, hy, hyk⟩ := hkl
    exact ⟨y, mem_pySorted.mp hy, hyk⟩
  have hm2src : ∀ x : Key, ho2 sb (joinKey ps x) = ho sb (joinKey ps x) := by
    intro x
    have hd1 : ∀ c ∈ chunked ((pySorted (syncExtras store sb tb ps pd)).map
          (joinKey pd)) dbs.toNat, ¬ (sb = tb ∧ joinKey ps x ∈ c) := by
      rintro c hc ⟨hbt, hkc⟩
      obtain ⟨y, _, hyk⟩ := hdelmem c hc _ hkc
      exact guard_false_key_ne (hbt ▸ hg) x y hyk.symm
    have hc1 : ∀ r ∈ pySorted (syncToCopy store ho sb tb ps pd cm),
        ¬ (sb = tb ∧ joinKey ps x = joinKey pd r) := by
      rintro r _ ⟨hbt, hkr⟩
      exact guard_false_key_ne (hbt ▸ hg) x r hkr
    rw [hsplit]
    exact (applyCallsMeta_deletes_ne tb _ _ sb (joinKey ps x) hd1).trans
      (applyCallsMeta_copies_ne sb tb _ _ _ ho sb (joinKey ps x) hc1)
  have hnd : (pySorted (syncToCopy store ho sb tb ps pd cm)).Nodup :=
    (pySorted_perm _).nodup_iff.mpr (syncToCopy_nodup store ho sb tb ps pd cm)
  have hm2cp : ∀ x ∈ syncToCopy store ho sb tb ps pd cm,
      ho2 tb (joinKey pd x) = ho sb (joinKey ps x) := by
    intro x hx
    have hd2 : ∀ c ∈ chunked ((pySorted (syncExtras store sb tb ps pd)).map
          (joinKey pd)) dbs.toNat, ¬ (tb = tb ∧ joinKey pd x ∈ c) := by
      rintro c hc ⟨-, hkc⟩
      obtain ⟨y, hy, hyk⟩ := hdelmem c hc _ hkc
      have hxy : y = x := joinKey_inj hyk
      subst hxy
      have hns := (List.mem_filter.mp hy).2
      simp only [decide_eq_true_eq] at hns
      exact hns (syncToCopy_sub_src hx)
    have hal : ∀ r r' : Key, ¬ (tb = sb ∧ joinKey pd r = joinKey ps r') := by
      rintro r r' ⟨hbt, hkr⟩
      exact guard_false_key_ne (hbt ▸ hg) r' r hkr.symm
    rw [hsplit]
    exact (applyCallsMeta_deletes_ne tb _ _ tb (joinKey pd x) hd2).trans
      (applyCallsMeta_copies_hit sb tb (fun r => joinKey ps r)
        (fun r => joinKey pd r) (fun r r' h => joinKey_inj h) hal
        (pySorted (syncToCopy store ho sb tb ps pd cm)) ho x hnd
        (mem_pySorted.mpr hx))
  have hm2un : ∀ x : Key, x ∉ syncToCopy store ho sb tb ps pd cm →
      x ∉ syncExtras store sb tb ps pd →
      ho2 tb (joinKey pd x) = ho tb (joinKey pd x) := by
    intro x hxc hxe
    have hd3 : ∀ c ∈ chunked ((pySorted (syncExtras store sb tb ps pd)).map
          (joinKey pd)) dbs.toNat, ¬ (tb = tb ∧ joinKey pd x ∈ c) := by
      rintro c hc ⟨-, hkc⟩
      obtain ⟨y, hy, hyk⟩ := hdelmem c hc _ hkc
      exact hxe (joinKey_inj hyk ▸ hy)
    have hc3 : ∀ r ∈ pySorted (syncToCopy store ho sb tb ps pd cm),
        ¬ (tb = tb ∧ joinKey pd x = joinKey pd r) := by
      rintro r hr ⟨-, hkr⟩
      exact hxc ((joinKey_inj hkr).symm ▸ mem_pySorted.mp hr)
    rw [hsplit]
    exact (applyCallsMeta_deletes_ne tb _ _ tb (joinKey pd x) hd3).trans
      (applyCallsMeta_copies_ne sb tb _ _ _ ho tb (joinKey pd x) hc3)
  have hsrc2 : list_objects store2 sb ps [] = list_objects store sb ps [] := by
    by_cases hbt : sb = tb
    · unfold list_objects
      rw [hs2 sb, if_pos hbt, List.filter_filter, List.filter_append]
      have h1 : (((pySorted (syncToCopy store ho sb tb ps pd cm)).map
            (joinKey pd)).reverse).filter (fun a =>
          ps.isPrefixOf a && ([] : PyStr).isSuffixOf a &&
            decide (a ∉ (pySorted (syncExtras store sb tb ps pd)).map
              (joinKey pd))) = [] := by
        rw [List.filter_eq_nil_iff]
        intro k hk hcon
        rw [List.mem_reverse, List.mem_map] at hk
        obtain ⟨y, _, hyk⟩ := hk
        rw [Bool.and_eq_true, Bool.and_eq_true] at hcon
        have hps : ps <+: k := List.isPrefixOf_iff_prefix.mp hcon.1.1
        exact guard_false_no_cross (hbt ▸ hg) y (hyk ▸ hps)
      have h2 : (store sb).filter (fun a =>
          ps.isPrefixOf a && ([] : PyStr).isSuffixOf a &&
            decide (a ∉ (pySorted (syncExtras store sb tb ps pd)).map
              (joinKey pd))) =
          (store sb).filter (fun k =>
            ps.isPrefixOf k && ([] : PyStr).isSuffixOf k) := by
        apply List.filter_congr
        intro k _
        by_cases hP : (ps.isPrefixOf k && ([] : PyStr).isSuffixOf k) = true
        · rw [hP, Bool.true_and]
          simp only [decide_eq_true_eq]
          intro hk
          rw [List.mem_map] at hk
          obtain ⟨y, _, hyk⟩ := hk
          have hP2 := hP
          rw [Bool.and_eq_true] at hP2
          have hps : ps <+: k := List.isPrefixOf_iff_prefix.mp hP2.1
          exact guard_false_no_cross (hbt ▸ hg) y (hyk ▸ hps)
        · have hPf : (ps.isPrefixOf k && ([] : PyStr).isSuffixOf k) = false :=
            Bool.eq_false_iff.mpr hP
          rw [hPf, Bool.false_and]
      rw [h1, h2, List.nil_append]
    · unfold list_objects
      rw [hs2 sb, if_neg hbt]
  have hsrcrel2 : syncSrcRel store2 sb ps = syncSrcRel store sb ps := by
    unfold syncSrcRel
    rw [hsrc2]
  have hE : ∀ x, x ∈ syncExtras store sb tb ps pd ↔
      x ∈ syncDstRel store tb pd ∧ x ∉ syncSrcRel store sb ps := by
    intro x
    unfold syncExtras
    simp [List.mem_filter]
  have hdst2 : ∀ x, x ∈ syncDstRel store2 tb pd ↔ x ∈ syncSrcRel store sb ps := by
    intro x
    rw [show syncDstRel store2 tb pd
      = relativize (list_objects store2 tb pd []) pd from rfl, mem_syncRel]
    constructor
    · rintro ⟨k, ⟨hk2, hkp⟩, rfl⟩
      rw [hs2 tb, if_pos rfl, List.mem_filter] at hk2
      obtain ⟨hk_or, hk_not⟩ := hk2
      rw [List.mem_append, List.mem_reverse] at hk_or
      rcases hk_or with hkc | hks
      · rw [List.mem_map] at hkc
        obtain ⟨x0, hx0, rfl⟩ := hkc
        rw [mem_pySorted] at hx0
        rw [stripPfx_joinKey]
        exact syncToCopy_sub_src hx0
      · have hxB : stripPfx pd k ∈ syncDstRel store tb pd :=
          mem_syncRel.mpr ⟨k, ⟨hks, hkp⟩, rfl⟩
        by_contra hxA
        have hkin : k ∈ (pySorted (syncExtras store sb tb ps pd)).map (joinKey pd) := by
          rw [List.mem_map]
          refine ⟨stripPfx pd k, ?_, joinKey_stripPfx hkp⟩
          rw [mem_pySorted, hE]
          exact ⟨hxB, hxA⟩
        simp [hkin] at hk_not
    · intro hxA
      by_cases hxB : x ∈ syncDstRel store tb pd
      · obtain ⟨k, ⟨hks, hkp⟩, hkstrip⟩ := mem_syncRel.mp hxB
        refine ⟨k, ⟨?_, hkp⟩, hkstrip⟩
        rw [hs2 tb, if_pos rfl, List.mem_filter]
        have hkx : joinKey pd x = k := by
          rw [← hkstrip]
          exact joinKey_stripPfx hkp
        constructor
        · rw [List.mem_append]
          exact Or.inr hks
        · simp only [decide_eq_true_eq]
          intro hk
          rw [List.mem_map] at hk
          obtain ⟨y, hy, hyk⟩ := hk
          rw [mem_pySorted, hE] at hy
          have hyx : y = x := joinKey_inj (by rw [hyk, ← hkx])
          exact hy.2 (hyx ▸ hxA)
      · refine ⟨joinKey pd x, ⟨?_, pfx_prefix_joinKey pd x⟩, stripPfx_joinKey pd x⟩
        rw [hs2 tb, if_pos rfl, List.mem_filter]
        constructor
        · rw [List.mem_append, List.mem_reverse]
          left
          rw [List.mem_map]
          exact ⟨x, mem_pySorted.mpr (syncToCopy_of_diff hxA hxB), rfl⟩
        · simp only [decide_eq_true_eq]
          intro hk
          rw [List.mem_map] at hk
          obtain ⟨y, hy, hyk⟩ := hk
          have hyx : y = x := joinKey_inj hyk
          rw [mem_pySorted, hE] at hy
          exact hxB (hyx ▸ hy.1)
  have hmd2 : ∀ x, x ∈ syncSrcRel store sb ps →
      metaDiff ho2 sb tb ps pd cm x = false := by
    intro x hx
    by_cases hxc : x ∈ syncToCopy store ho sb tb ps pd cm
    · exact metaDiff_false_of_eq ((hm2src x).trans (hm2cp x hxc).symm)
    · have hxd : x ∈ syncDstRel store tb pd := by
        by_contra hxd
        exact hxc (syncToCopy_of_diff hx hxd)
      have hxe : x ∉ syncExtras store sb tb ps pd := by
        intro hxe
        have hns := (List.mem_filter.mp hxe).2
        simp only [decide_eq_true_eq] at hns
        exact hns hx
      rw [metaDiff_congr (hm2src x) (hm2un x hxc hxe)]
      by_cases hcm : cm = "etag" ∨ cm = "size"
      · cases hb : metaDiff ho sb tb ps pd cm x with
        | false => rfl
        | true =>
          refine absurd ?_ hxc
          unfold syncToCopy
          refine List.mem_append.mpr (Or.inr ?_)
          unfold deepDiffSet
          rw [if_pos hcm]
          refine List.mem_filter.mpr ⟨List.mem_filter.mpr ⟨hx, ?_⟩, ?_⟩
          · simpa using hxd
          · simpa using hb
      · push_neg at hcm
        exact metaDiff_shallow hcm.1 hcm.2
  have htc2 : syncToCopy store2 ho2 sb tb ps pd cm = [] := by
    unfold syncToCopy
    refine List.append_eq_nil.mpr ⟨?_, ?_⟩
    · rw [List.filter_eq_nil_iff]
      intro x hx
      rw [hsrcrel2] at hx
      simp only [decide_eq_true_eq, Decidable.not_not]
      exact (hdst2 x).mpr hx
    · unfold deepDiffSet
      split
      · rw [List.filter_eq_nil_iff]
        intro x hx
        have hxs : x ∈ syncSrcRel store sb ps := by
          have hxm := (List.mem_filter.mp hx).1
          rwa [hsrcrel2] at hxm
        simp only [decide_eq_true_eq]
        rw [hmd2 x hxs]
        simp
      · rfl
  have hex2 : syncExtras store2 sb tb ps pd = [] := by
    unfold syncExtras
    rw [List.filter_eq_nil_iff]
    intro x hx
    simp only [decide_eq_true_eq, Decidable.not_not]
    rw [hsrcrel2]
    exact (hdst2 x).mp hx
  have hdel2 : syncDeletePhase dor tb pd true false
      (syncExtras store2 sb tb ps pd) dbs = ([], .ok ([], [])) := by
    rw [hex2]
    exact syncDeletePhase_empty dor tb pd false dbs
  rw [sync_pfx_ok_eq store2 ho2 co dor sb tb ps pd true cm false dbs hg hdel2]
  refine ⟨_, rfl, ?_, rfl, ?_, rfl⟩
  · rw [show (SyncResult.copied _) = CopiedField.rels
      (pySorted (syncToCopy store2 ho2 sb tb ps pd cm)) from rfl, htc2]
    rfl
  · rw [show (SyncStats.to_copy _) =
      (syncToCopy store2 ho2 sb tb ps pd cm).length from rfl, htc2]
    rfl

/-- C9 witness: a same-bucket sync of the incomparable prefixes `a/` and
`b/` under `"etag"` comparison — after replaying the first run's calls
against the store and the metadata, the second run plans nothing. -/
theorem sync_idempotent_witness :
    ∃ r2, (sync_pfx
        (applyCalls (fun b => if b = ['u'] then [['a', '/', 'k'], ['b', '/', 'z']] else [])
          (sync_pfx (fun b => if b = ['u'] then [['a', '/', 'k'], ['b', '/', 'z']] else [])
            (fun _ _ => some ("e".toList.asString, some 1)) (fun _ _ _ _ => none)
            (fun _ c => .ok ⟨c, []⟩)
            ['u'] ['u'] ['a', '/'] ['b', '/'] true "etag" false 1000).1)
        (applyCallsMeta (fun _ _ => some ("e".toList.asString, some 1))
          (sync_pfx (fun b => if b = ['u'] then [['a', '/', 'k'], ['b', '/', 'z']] else [])
            (fun _ _ => some ("e".toList.asString, some 1)) (fun _ _ _ _ => none)
            (fun _ c => .ok ⟨c, []⟩)
            ['u'] ['u'] ['a', '/'] ['b', '/'] true "etag" false 1000).1)
        (fun _ _ _ _ => none) (fun _ c => .ok ⟨c, []⟩)
        ['u'] ['u'] ['a', '/'] ['b', '/'] true "etag" false 1000).2 = .ok r2 ∧
      r2.copied = .rels [] ∧ r2.deleted = [] ∧
      r2.stats.to_copy = 0 ∧ r2.stats.to_delete = 0 :=
  sync_idempotent (fun b => if b = ['u'] then [['a', '/', 'k'], ['b', '/', 'z']] else [])
    (fun _ _ => some ("e".toList.asString, some 1)) (fun _ _ _ _ => none)
    (fun _ c => .ok ⟨c, []⟩)
    ['u'] ['u'] ['a', '/'] ['b', '/'] "etag" 1000 (by decide) (by decide)

end S3Flow
